import Mathlib

/-!
Verification development for the gedgraph relationship-graph engine.

The development shallowly embeds the record accessors (`parser.py`), the
path finder (`pathfinder.py`) and the chart builders (`dotgen.py`).
Individual and family records are modelled with exactly the fields the
engine reads: the individual's xref id, its first FAMC pointer, its FAMS
pointer list and its SEX value; the family's xref id, HUSB/WIFE pointer
xrefs, CHIL xref list and MARR-presence flag.  Display-only data (names,
birth/death years) feeds only the textual node labels of the DOT output
and is not modelled; chart builders are embedded up to their structural
output (generation grouping, spouse map, edge list).

Loops with early `return` are embedded as `find?`/`any`; the BFS `while`
loops are embedded with an explicit fuel parameter together with a proved
sufficient fuel bound, so the embedded functions compute exactly what the
Python loops compute.
-/

/-- An individual record, restricted to the fields the engine reads. -/
structure Individual where
  xref_id : String
  famc : Option String
  fams : List String
  sex : Option String
deriving DecidableEq, Repr

/-- A family record, restricted to the fields the engine reads. -/
structure Family where
  xref_id : String
  husb : Option String
  wife : Option String
  children : List String
  marr : Bool
deriving DecidableEq, Repr

/-- The loaded GEDCOM data: the `_individuals` and `_families` dictionaries
of `GedcomParser`, modelled as association lists keyed by `xref_id`. -/
structure Gedcom where
  individuals : List Individual
  families : List Family
deriving DecidableEq, Repr

/-- Python `xref_id.startswith("@")`: the prefix is the single character
`@`, so this is a first-character test (written on the character list, which
the kernel can evaluate). -/
def startsWithAt (s : String) : Bool :=
  match s.data with
  | [] => false
  | c :: _ => c == '@'

/-- Canonical key: `get_individual` wraps a bare identifier in `@...@`. -/
def canonKey (xref_id : String) : String :=
  if startsWithAt xref_id then xref_id else "@" ++ xref_id ++ "@"

/-- `GedcomParser.get_individual`: canonicalize the id, then dictionary lookup. -/
def get_individual (g : Gedcom) (xref_id : String) : Option Individual :=
  g.individuals.find? (fun i => i.xref_id == canonKey xref_id)

/-- `GedcomParser._get_family`: dictionary lookup, no canonicalization. -/
def get_family (g : Gedcom) (xref_id : String) : Option Family :=
  g.families.find? (fun f => f.xref_id == xref_id)

/-- `GedcomParser.get_parents`: resolve the first FAMC family, then its
HUSB and WIFE pointers. -/
def get_parents (g : Gedcom) (ind : Individual) : Option Individual × Option Individual :=
  match ind.famc with
  | none => (none, none)
  | some famc =>
    match get_family g famc with
    | none => (none, none)
    | some fam =>
      ((match fam.husb with
        | some h => get_individual g h
        | none => none),
       (match fam.wife with
        | some w => get_individual g w
        | none => none))

/-- `GedcomParser.get_families_as_spouse`: resolve each FAMS pointer, keep hits. -/
def get_families_as_spouse (g : Gedcom) (ind : Individual) : List Family :=
  ind.fams.filterMap (get_family g)

/-- `GedcomParser.get_children`: for each spouse family, resolve each CHIL. -/
def get_children (g : Gedcom) (ind : Individual) : List Individual :=
  (get_families_as_spouse g ind).flatMap (fun fam => fam.children.filterMap (get_individual g))

/-- `GedcomParser.get_sex`: the SEX value, with an empty value treated as
absent (Python truthiness of `sex.value`). -/
def get_sex (ind : Individual) : Option String :=
  match ind.sex with
  | some s => if s = "" then none else some s
  | none => none

/-- `GedcomParser._is_couple_married`: the first spouse family of `i1` whose
HUSB/WIFE pair is `{i1, i2}` (in either orientation) decides by its MARR flag;
no such family means not married. -/
def is_couple_married (g : Gedcom) (i1 i2 : Individual) : Bool :=
  match (get_families_as_spouse g i1).find? (fun fam =>
    match fam.husb, fam.wife with
    | some h, some w =>
      (h == i1.xref_id && w == i2.xref_id) || (h == i2.xref_id && w == i1.xref_id)
    | _, _ => false) with
  | some fam => fam.marr
  | none => false

/-- `GedcomParser.get_spouse_for_child`: the co-parent of `ind` for `child`,
with the married flag. -/
def get_spouse_for_child (g : Gedcom) (ind child : Individual) :
    Option Individual × Bool :=
  match get_parents g child with
  | (some cf, some cm) =>
    let spouse : Option Individual :=
      if ind.xref_id = cf.xref_id then some cm
      else if ind.xref_id = cm.xref_id then some cf
      else none
    match spouse with
    | none => (none, false)
    | some sp => (some sp, is_couple_married g ind sp)
  | _ => (none, false)

/-! ## Path data types (`pathfinder.py`) -/

/-- `RelationType`. -/
inductive RelationType where
  | parent
  | child
deriving DecidableEq, Repr

/-- `BloodType`. -/
inductive BloodType where
  | full
  | half
deriving DecidableEq, Repr

/-- `BloodType` enum values used by the sorting key. -/
def BloodType.value : BloodType → Nat
  | .full => 1
  | .half => 2

/-- `PathStep`. -/
structure PathStep where
  individual_id : String
  relation_type : RelationType
  blood_type : BloodType
  via_male : Bool
deriving DecidableEq, Repr

/-- `RelationshipPath`. -/
structure RelationshipPath where
  steps : List PathStep
  start_id : String
  end_id : String
deriving DecidableEq, Repr

/-- `RelationshipPath.length`. -/
def RelationshipPath.length (p : RelationshipPath) : Nat :=
  p.steps.length

/-- `RelationshipPath.generation_distance`. -/
def RelationshipPath.generation_distance (p : RelationshipPath) : Int :=
  p.steps.foldl (fun d st =>
    match st.relation_type with
    | .child => d + 1
    | .parent => d - 1) 0

/-- `RelationshipPath.sorting_key`: `(length, blood_score, male_score)`. -/
def RelationshipPath.sorting_key (p : RelationshipPath) : Nat × Nat × Nat :=
  ((p.length : Nat),
   (p.steps.map (fun st => st.blood_type.value)).sum,
   (p.steps.map (fun st => if st.via_male then 0 else 1)).sum)

/-! ## The path finder (`PathFinder`) -/

/-- `PathFinder._determine_blood_type`: full blood when the child has both
parents and some spouse family of `parent` has exactly that HUSB/WIFE pair. -/
def determine_blood_type (g : Gedcom) (parent child : Individual) : BloodType :=
  match get_parents g child with
  | (some cf, some cm) =>
    if (get_families_as_spouse g parent).any (fun fam =>
        match fam.husb, fam.wife with
        | some h, some w => cf.xref_id == h && cm.xref_id == w
        | _, _ => false)
    then .full else .half
  | _ => .half

/-- `PathFinder._get_neighbors`: father step, mother step, then one child
step per child, in that order. -/
def get_neighbors (g : Gedcom) (ind : Individual) : List (Individual × PathStep) :=
  (match (get_parents g ind).1 with
   | some father => [(father, ⟨father.xref_id, .parent, .full, true⟩)]
   | none => []) ++
  (match (get_parents g ind).2 with
   | some mother => [(mother, ⟨mother.xref_id, .parent, .full, false⟩)]
   | none => []) ++
  (get_children g ind).map (fun child =>
    (child, ⟨child.xref_id, .child, determine_blood_type g ind child,
             get_sex ind == some "M"⟩))

/-- The skip test `if min_length and current_depth > min_length` (Python
truthiness: `min_length = 0` would be falsy). -/
def mlSkip : Option Nat → Nat → Bool
  | none, _ => false
  | some m, d => m != 0 && decide (m < d)

/-- Result of expanding one dequeued entry over its neighbor list. -/
structure ExpandOut where
  vis : String → Option Nat
  ml : Option Nat
  ps : List RelationshipPath
  es : List (Individual × List PathStep)

/-- The `for neighbor, step in neighbors` loop body of
`find_relationship_paths`: append a finished path when the neighbor is the
end individual (recording `min_length` on the first one), otherwise enqueue
the neighbor when it is unvisited or its recorded depth is `≥` the new depth. -/
def expand (g : Gedcom) (endId sId eId : String) (path : List PathStep) :
    List (Individual × PathStep) → (String → Option Nat) → Option Nat →
    List RelationshipPath → ExpandOut
  | [], vis, ml, ps => ⟨vis, ml, ps, []⟩
  | (nb, stp) :: rest, vis, ml, ps =>
    if nb.xref_id = endId then
      let ml' := match ml with
        | none => some (path.length + 1)
        | some m => some m
      expand g endId sId eId path rest vis ml' (ps ++ [⟨path ++ [stp], sId, eId⟩])
    else
      match vis nb.xref_id with
      | none =>
        let o := expand g endId sId eId path rest
          (fun x => if x = nb.xref_id then some (path.length + 1) else vis x) ml ps
        ⟨o.vis, o.ml, o.ps, (nb, path ++ [stp]) :: o.es⟩
      | some v =>
        if path.length + 1 ≤ v then
          let o := expand g endId sId eId path rest
            (fun x => if x = nb.xref_id then some (path.length + 1) else vis x) ml ps
          ⟨o.vis, o.ml, o.ps, (nb, path ++ [stp]) :: o.es⟩
        else
          expand g endId sId eId path rest vis ml ps

/-- The BFS `while queue` loop of `find_relationship_paths`, with fuel.
`none` means the fuel ran out before the queue emptied; the public wrapper
supplies a proved-sufficient fuel. -/
def bfsAux (g : Gedcom) (en : Individual) (maxDepth : Nat) (sId eId : String) :
    Nat → List (Individual × List PathStep) → (String → Option Nat) →
    Option Nat → List RelationshipPath → Option (List RelationshipPath)
  | _, [], _, _, ps => some ps
  | 0, _ :: _, _, _, _ => none
  | fuel + 1, (cur, path) :: rest, vis, ml, ps =>
    if mlSkip ml path.length then
      bfsAux g en maxDepth sId eId fuel rest vis ml ps
    else if maxDepth ≤ path.length then
      bfsAux g en maxDepth sId eId fuel rest vis ml ps
    else
      let o := expand g en.xref_id sId eId path (get_neighbors g cur) vis ml ps
      bfsAux g en maxDepth sId eId fuel (rest ++ o.es) o.vis o.ml o.ps

/-- An upper bound on the length of any neighbor list of an individual of `g`. -/
def maxNbr (g : Gedcom) : Nat :=
  (g.individuals.map (fun i => (get_neighbors g i).length)).foldr Nat.max 0

/-- Fuel that provably suffices for the BFS (see `bfsAux_terminates`). -/
def bfsFuel (g : Gedcom) (maxDepth : Nat) : Nat :=
  (maxNbr g + 1) ^ maxDepth + 1

/-- `PathFinder.find_relationship_paths` up to the fuel wrapper: resolve the
two ids, handle the equal-individual case, then run the BFS. -/
def bfsRun (g : Gedcom) (start_id end_id : String) (maxDepth : Nat) :
    Option (List RelationshipPath) :=
  match get_individual g start_id, get_individual g end_id with
  | some st, some en =>
    if st.xref_id = en.xref_id then some [⟨[], start_id, end_id⟩]
    else
      bfsAux g en maxDepth start_id end_id (bfsFuel g maxDepth)
        [(st, [])] (fun x => if x = st.xref_id then some 0 else none) none []
  | _, _ => some []

/-- `PathFinder.find_relationship_paths`.  The fuel is sufficient
(`bfsRun` never returns `none`, see the termination theorem), so this equals
the Python function. -/
def find_relationship_paths (g : Gedcom) (start_id end_id : String)
    (maxDepth : Nat := 10) : List RelationshipPath :=
  (bfsRun g start_id end_id maxDepth).getD []

/-! ## The generation walk (`find_pedigree`) -/

/-- The `for parent in [father, mother]` loop of `find_pedigree`: enqueue
each present, unvisited parent at the next generation, marking it visited. -/
def enqueueParents (gen1 : Nat) :
    List (Option Individual) → (String → Bool) →
    (String → Bool) × List (Individual × Nat)
  | [], vis => (vis, [])
  | none :: rest, vis => enqueueParents gen1 rest vis
  | some p :: rest, vis =>
    if vis p.xref_id then enqueueParents gen1 rest vis
    else
      let o := enqueueParents gen1 rest (fun x => x = p.xref_id || vis x)
      (o.1, (p, gen1) :: o.2)

/-- The `while queue` loop of `find_pedigree`, with fuel; records each
dequeued `(individual, generation)` pair in visit order. -/
def genWalkAux (g : Gedcom) (maxGen : Nat) :
    Nat → List (Individual × Nat) → (String → Bool) → List (Individual × Nat) →
    Option (List (Individual × Nat))
  | _, [], _, acc => some acc
  | 0, _ :: _, _, _ => none
  | fuel + 1, (cur, gen) :: rest, vis, acc =>
    let acc' := acc ++ [(cur, gen)]
    if gen < maxGen then
      let pr := get_parents g cur
      let o := enqueueParents (gen + 1) [pr.1, pr.2] vis
      genWalkAux g maxGen fuel (rest ++ o.2) o.1 acc'
    else
      genWalkAux g maxGen fuel rest vis acc'

/-- Fuel that provably suffices for the generation walk. -/
def pedFuel (g : Gedcom) : Nat :=
  g.individuals.length + 2

/-- The generation walk from a root id: the shared loop of `find_pedigree`,
returning the dequeued `(individual, generation)` sequence. -/
def genWalkRun (g : Gedcom) (individual_id : String) (maxGen : Nat) :
    Option (List (Individual × Nat)) :=
  match get_individual g individual_id with
  | none => some []
  | some ind =>
    genWalkAux g maxGen (pedFuel g) [(ind, 0)] (fun x => x = ind.xref_id) []

/-- `PathFinder.find_pedigree`: the loop appends each dequeued individual;
this is the first projection of the dequeued pair sequence. -/
def find_pedigree (g : Gedcom) (individual_id : String) (generations : Nat := 4) :
    List Individual :=
  ((genWalkRun g individual_id generations).getD []).map (fun e => e.1)

/-- Modelled from the spec: `find_pedigree_with_generations` is called by the
chart builders but is absent from the provided sources (only its callers and
tests are present).  Spec §4.2 Generation Walker: breadth-first ancestor walk
from the root at generation 0, each parent placed at `generation + 1`, a node
visited at most once, nodes at exactly `max_generations` included but not
expanded — i.e. the `find_pedigree` loop returning `(individual, generation)`
pairs. -/
def find_pedigree_with_generations (g : Gedcom) (individual_id : String)
    (generations : Nat) : List (Individual × Nat) :=
  (genWalkRun g individual_id generations).getD []

/-! ## Path ranking (`get_shortest_paths`) -/

/-- Lexicographic order on the `(length, blood_score, male_score)` triples:
Python tuple comparison. -/
def tupLe (a b : Nat × Nat × Nat) : Prop :=
  a.1 < b.1 ∨ (a.1 = b.1 ∧ (a.2.1 < b.2.1 ∨ (a.2.1 = b.2.1 ∧ a.2.2 ≤ b.2.2)))

instance : DecidableRel tupLe := fun a b => by
  unfold tupLe; exact inferInstance

/-- Path comparison by sorting key. -/
def keyLe (p q : RelationshipPath) : Prop :=
  tupLe p.sorting_key q.sorting_key

instance : DecidableRel keyLe := fun p q => by
  unfold keyLe; exact inferInstance

instance : IsTotal RelationshipPath keyLe :=
  ⟨fun p q => by unfold keyLe tupLe; omega⟩

instance : IsTrans RelationshipPath keyLe :=
  ⟨fun p q r => by unfold keyLe tupLe; omega⟩

/-- `PathFinder.get_shortest_paths`: stably sort all found paths by the
sorting key (Python `list.sort(key=...)`; a stable sort over a total preorder
is order-determined, so insertion sort computes the same list), then keep
every path whose key equals the first (minimal) key. -/
def get_shortest_paths (g : Gedcom) (start_id end_id : String)
    (maxDepth : Nat := 10) : List RelationshipPath :=
  let all_paths := find_relationship_paths g start_id end_id maxDepth
  match all_paths with
  | [] => []
  | _ =>
    let sorted := all_paths.insertionSort keyLe
    match sorted with
    | [] => []
    | h :: _ => sorted.filter (fun p => p.sorting_key == h.sorting_key)

/-! ## Chart builders (`dotgen.py`), up to their structural output -/

/-- Append `ind` to the bucket of generation `gen`, creating the bucket at
the end on first use (Python dict insertion order). -/
def addToMap (m : List (Nat × List Individual)) (gen : Nat) (ind : Individual) :
    List (Nat × List Individual) :=
  match m with
  | [] => [(gen, [ind])]
  | (k, l) :: rest =>
    if k = gen then (k, l ++ [ind]) :: rest
    else (k, l) :: addToMap rest gen ind

/-- The generation grouping `generations_map` of `generate_pedigree`. -/
def groupByGen (walk : List (Individual × Nat)) : List (Nat × List Individual) :=
  walk.foldl (fun m e => addToMap m e.2 e.1) []

/-- Bucket lookup in a generation map. -/
def lookupGen (gen : Nat) (m : List (Nat × List Individual)) :
    Option (List Individual) :=
  match m.find? (fun e => e.1 == gen) with
  | some e => some e.2
  | none => none

/-- `DotGenerator.generate_pedigree`, embedded up to the generation grouping
(the subsequent node/edge text rendering is presentation-only): raise
(`Except.error`) for an unresolvable root, otherwise group the single
ancestor walk by generation. -/
def generate_pedigree (g : Gedcom) (individual_id : String)
    (generations : Nat := 4) : Except String (List (Nat × List Individual)) :=
  match get_individual g individual_id with
  | none => .error ("Individual " ++ individual_id ++ " not found")
  | some _ =>
    .ok (groupByGen (find_pedigree_with_generations g individual_id generations))

/-- Structural output of `generate_relationship`: the direct line, the
spouse map and the parent/child edge list (node label text abstracted). -/
structure RelChart where
  startId : String
  endId : String
  genDistance : Int
  pathLength : Nat
  spouseMap : List (String × Individual × Bool)
  nodeIds : List String
  edges : List (String × String)
deriving DecidableEq, Repr

/-- Python dict assignment `spouse_map[key] = value`: replace in place or
append. -/
def setKey (m : List (String × Individual × Bool)) (k : String)
    (v : Individual × Bool) : List (String × Individual × Bool) :=
  match m with
  | [] => [(k, v)]
  | (k', v') :: rest =>
    if k' = k then (k, v) :: rest else (k', v') :: setKey rest k v

/-- The spouse-map loop of `generate_relationship`: for each consecutive pair
of the direct line, the co-parent of the later individual for the earlier one,
kept when it exists and is not itself on the direct line. -/
def buildSpouseMap (g : Gedcom) (allIds : List String) :
    List (String × Individual × Bool) :=
  (allIds.zip allIds.tail).foldl (fun m pr =>
    match get_individual g pr.1, get_individual g pr.2 with
    | some cur, some nxt =>
      match get_spouse_for_child g nxt cur with
      | (some spouse, married) =>
        if spouse.xref_id ∈ allIds then m else setKey m pr.2 (spouse, married)
      | (none, _) => m
    | _, _ => m) []

/-- The edge loop of `generate_relationship`: a parent step draws the edge
from the step target to the current node, a child step the reverse. -/
def buildEdges (cur : String) : List PathStep → List (String × String)
  | [] => []
  | stp :: rest =>
    (match stp.relation_type with
     | .parent => (stp.individual_id, cur)
     | .child => (cur, stp.individual_id)) :: buildEdges stp.individual_id rest

/-- `DotGenerator.generate_relationship`, embedded up to its structural
output: raise (`Except.error`) on an empty path list, raise when the first
path's endpoints do not resolve, otherwise build the chart structure. -/
def generate_relationship (g : Gedcom) (paths : List RelationshipPath) :
    Except String RelChart :=
  match paths with
  | [] => .error "No paths provided"
  | path :: _ =>
    match get_individual g path.start_id, get_individual g path.end_id with
    | some _, some _ =>
      let allIds := path.start_id :: path.steps.map (fun st => st.individual_id)
      .ok ⟨path.start_id, path.end_id, path.generation_distance, path.length,
           buildSpouseMap g allIds, allIds, buildEdges path.start_id path.steps⟩
    | _, _ => .error "Invalid start or end individual"

/-! ## Specification-side notions: walks in the family graph -/

/-- A record is canonical when it is the result of some `get_individual`
lookup; the engine only ever handles canonical records. -/
def CanonR (g : Gedcom) (r : Individual) : Prop :=
  ∃ x, get_individual g x = some r

/-- `ChainTo g cur steps fin`: starting at the record `cur`, the steps
successively move to a neighbor produced by `_get_neighbors`, ending at the
record `fin`. -/
inductive ChainTo (g : Gedcom) : Individual → List PathStep → Individual → Prop where
  | nil (cur : Individual) : ChainTo g cur [] cur
  | cons {cur nb fin : Individual} {stp : PathStep} {rest : List PathStep} :
      (nb, stp) ∈ get_neighbors g cur → ChainTo g nb rest fin →
      ChainTo g cur (stp :: rest) fin

/-- A connecting walk from the resolved start record to (a record with the
xref of) the resolved end record. -/
def ConnSteps (g : Gedcom) (si ei : Individual) (steps : List PathStep) : Prop :=
  ∃ fin, ChainTo g si steps fin ∧ fin.xref_id = ei.xref_id

/-- `ChainSat g R cur steps`: the steps form a `_get_neighbors` walk from
`cur` and every step `stp` to neighbor `nb` taken from node `c` satisfies
`R c stp nb`. -/
inductive ChainSat (g : Gedcom) (R : Individual → PathStep → Individual → Prop) :
    Individual → List PathStep → Prop where
  | nil (cur : Individual) : ChainSat g R cur []
  | cons {cur nb : Individual} {stp : PathStep} {rest : List PathStep} :
      (nb, stp) ∈ get_neighbors g cur → R cur stp nb → ChainSat g R nb rest →
      ChainSat g R cur (stp :: rest)

/-- The spec's full-blood condition for the edge from `parent` to `child`:
the child's two parents are exactly the HUSB/WIFE pair of some family in
which `parent` is a spouse. -/
def FullBloodCond (g : Gedcom) (parent child : Individual) : Prop :=
  ∃ cf cm, (get_parents g child).1 = some cf ∧ (get_parents g child).2 = some cm ∧
    ∃ fam ∈ get_families_as_spouse g parent,
      fam.husb = some cf.xref_id ∧ fam.wife = some cm.xref_id

/-- Claim C2 as stated: on every step the blood weight is full exactly when
the full-blood condition holds between the parent on that edge and the child
on that edge (for a toward-parent step the neighbor is the parent and the
departed node the child; for a toward-child step the other way around). -/
def StepBloodClaim (g : Gedcom) (cur : Individual) (stp : PathStep)
    (nb : Individual) : Prop :=
  match stp.relation_type with
  | .parent => stp.blood_type = .full ↔ FullBloodCond g nb cur
  | .child => stp.blood_type = .full ↔ FullBloodCond g cur nb

/-- Claim C2 amended: toward-child steps follow the full-blood condition,
while toward-parent steps always carry full blood weight. -/
def StepBloodOk (g : Gedcom) (cur : Individual) (stp : PathStep)
    (nb : Individual) : Prop :=
  match stp.relation_type with
  | .parent => stp.blood_type = .full
  | .child => stp.blood_type = .full ↔ FullBloodCond g cur nb

/-- Claim C3 as stated: via-male mirrors the sex of the node departed from
(with, for toward-parent steps, the additional requirement that the target
parent is of male sex); unknown sex resolves to not-male. -/
def StepMaleClaim (g : Gedcom) (cur : Individual) (stp : PathStep)
    (nb : Individual) : Prop :=
  match stp.relation_type with
  | .parent =>
    stp.via_male = (decide (get_sex cur = some "M") && decide (get_sex nb = some "M"))
  | .child => stp.via_male = decide (get_sex cur = some "M")

/-- Claim C3 amended: a toward-parent step is via-male exactly when its
target occupies the father (HUSB) slot, and not via-male when it occupies the
mother (WIFE) slot, regardless of recorded sex; a toward-child step is
via-male exactly when the departed node is recorded male (unknown sex
resolves to not-male). -/
def StepMaleOk (g : Gedcom) (cur : Individual) (stp : PathStep)
    (nb : Individual) : Prop :=
  match stp.relation_type with
  | .parent =>
    (stp.via_male = true ∧ (get_parents g cur).1 = some nb) ∨
    (stp.via_male = false ∧ (get_parents g cur).2 = some nb)
  | .child => stp.via_male = decide (get_sex cur = some "M")

/-- Soundness invariant of the `find_relationship_paths` BFS loop state. -/
structure BfsInv (g : Gedcom) (st en : Individual) (maxD : Nat) (sId eId : String)
    (q : List (Individual × List PathStep)) (vis : String → Option Nat)
    (ml : Option Nat) (ps : List RelationshipPath) : Prop where
  qChain : ∀ e ∈ q, ChainTo g st e.2 e.1
  qNoEnd : ∀ e ∈ q, ∀ stp ∈ e.2, stp.individual_id ≠ en.xref_id
  qLen : ∀ e ∈ q, e.2.length ≤ maxD
  qMem : ∀ e ∈ q, e.1 ∈ g.individuals
  vWalk : ∀ n v, vis n = some v →
    ∃ steps fin, ChainTo g st steps fin ∧ fin.xref_id = n ∧ steps.length = v
  pSound : ∀ p ∈ ps, p.start_id = sId ∧ p.end_id = eId ∧ p.steps ≠ [] ∧
    (∃ fin, ChainTo g st p.steps fin ∧ fin.xref_id = en.xref_id) ∧
    (∀ stp ∈ p.steps.dropLast, stp.individual_id ≠ en.xref_id) ∧
    p.steps.length ≤ maxD
  mlSome : ∀ m, ml = some m → ∃ p ∈ ps, p.steps.length = m
  mlNone : ml = none → ps = []
  mlBound : ∀ m, ml = some m → ∀ p ∈ ps, p.steps.length ≤ m + 1

/-- Weight of a queue entry for the termination potential. -/
def entryWeight (maxD B : Nat) (e : Individual × List PathStep) : Nat :=
  (B + 1) ^ (maxD - e.2.length)

/-- Termination potential of a BFS queue. -/
def qPot (maxD B : Nat) (q : List (Individual × List PathStep)) : Nat :=
  (q.map (entryWeight maxD B)).sum

/-- Queue entries ordered by nondecreasing depth. -/
def depthLe (a b : Individual × List PathStep) : Prop :=
  a.2.length ≤ b.2.length

/-- A minimal connecting walk. -/
structure MinWalk (g : Gedcom) (st en : Individual) (W : List PathStep)
    (wEnd : Individual) : Prop where
  chain : ChainTo g st W wEnd
  endx : wEnd.xref_id = en.xref_id
  minimal : ∀ steps fin, ChainTo g st steps fin → fin.xref_id = en.xref_id →
    W.length ≤ steps.length

/-- Completeness invariant: the minimal walk has either been recorded as a
found path, or a proper prefix of it is still queued (with the matching
suffix leading on to the end individual). -/
def CInv (g : Gedcom) (st wEnd : Individual) (W : List PathStep)
    (q : List (Individual × List PathStep)) (ps : List RelationshipPath) : Prop :=
  (∃ p ∈ ps, p.steps = W) ∨
  (∃ pre suf mid, pre ++ suf = W ∧ suf ≠ [] ∧ ChainTo g st pre mid ∧
    ChainTo g mid suf wEnd ∧ (mid, pre) ∈ q)

/-- Count of graph ids not yet visited. -/
def pedCand (g : Gedcom) (vis : String → Bool) : Nat :=
  (((g.individuals.map (fun i => i.xref_id)).dedup).filter (fun x => !vis x)).length

/-- Number of half-blood steps (the spec's `blood_score`). -/
def halfCount (steps : List PathStep) : Nat :=
  (steps.filter (fun st => st.blood_type == BloodType.half)).length

/-- Number of via-female steps (the spec's `male_score`). -/
def femaleCount (steps : List PathStep) : Nat :=
  (steps.filter (fun st => !st.via_male)).length

/-- The spec's composite key `(length, blood_score, male_score)` with
`blood_score` = count of half-weight steps and `male_score` = count of
via-female steps. -/
def claimKey (p : RelationshipPath) : Nat × Nat × Nat :=
  (p.steps.length, halfCount p.steps, femaleCount p.steps)

/-! ## Concrete test graphs -/

/-- A single parent `A` with child `B` (one family, no mother recorded). -/
def aRec : Individual := ⟨"@A@", none, ["@F1@"], none⟩

/-- The child `B` of `aRec`. -/
def bRec : Individual := ⟨"@B@", some "@F1@", [], none⟩

/-- Graph with one parent-child edge. -/
def gOne : Gedcom :=
  ⟨[aRec, bRec], [⟨"@F1@", some "@A@", none, ["@B@"], false⟩]⟩

/-- A daughter `C`, recorded female, with a father `F` and no mother. -/
def cRec : Individual := ⟨"@C@", some "@F5@", [], some "F"⟩

/-- The father `F` of `cRec`. -/
def fRec : Individual := ⟨"@F@", none, ["@F5@"], none⟩

/-- Graph with a single father-daughter edge and no mother. -/
def gPar : Gedcom :=
  ⟨[cRec, fRec], [⟨"@F5@", some "@F@", none, ["@C@"], false⟩]⟩

/-- Root of the two-route graph `gC4`. -/
def s4 : Individual := ⟨"@S@", none, ["@F1@"], none⟩

/-- Individual `A` of `gC4`. -/
def a4 : Individual := ⟨"@A@", some "@F1@", ["@F2@"], none⟩

/-- Individual `B` of `gC4`. -/
def b4 : Individual := ⟨"@B@", some "@F1@", ["@F3@"], none⟩

/-- Individual `C` of `gC4`. -/
def c4r : Individual := ⟨"@C@", some "@F3@", ["@F4@"], none⟩

/-- Target `T` of `gC4`. -/
def t4 : Individual := ⟨"@T@", some "@F2@", [], none⟩

/-- Graph in which `S` reaches `T` by one walk of length 2 (via `A`) and one
of length 3 (via `B` and `C`). -/
def gC4 : Gedcom :=
  ⟨[s4, a4, b4, c4r, t4],
   [⟨"@F1@", some "@S@", none, ["@A@", "@B@"], false⟩,
    ⟨"@F2@", some "@A@", none, ["@T@"], false⟩,
    ⟨"@F3@", some "@B@", none, ["@C@"], false⟩,
    ⟨"@F4@", some "@C@", none, ["@T@"], false⟩]⟩

/-- The empty record store. -/
def gEmpty : Gedcom := ⟨[], []⟩

/-! ## Basic accessor lemmas -/

theorem get_individual_mem {g : Gedcom} {x : String} {r : Individual}
    (h : get_individual g x = some r) : r ∈ g.individuals :=
  List.mem_of_find?_eq_some h

theorem get_individual_xref {g : Gedcom} {x : String} {r : Individual}
    (h : get_individual g x = some r) : r.xref_id = canonKey x := by
  have := List.find?_some h
  simpa using this

theorem get_individual_canonR {g : Gedcom} {x : String} {r : Individual}
    (h : get_individual g x = some r) : CanonR g r :=
  ⟨x, h⟩

theorem canonR_inj {g : Gedcom} {r1 r2 : Individual}
    (h1 : CanonR g r1) (h2 : CanonR g r2) (hx : r1.xref_id = r2.xref_id) :
    r1 = r2 := by
  obtain ⟨x1, e1⟩ := h1
  obtain ⟨x2, e2⟩ := h2
  have k1 := get_individual_xref e1
  have k2 := get_individual_xref e2
  have hk : canonKey x1 = canonKey x2 := by rw [← k1, ← k2, hx]
  unfold get_individual at e1 e2
  rw [hk] at e1
  rw [e1] at e2
  exact (Option.some.injEq _ _).mp e2

theorem get_parents_fst_canonR {g : Gedcom} {ind f : Individual}
    (h : (get_parents g ind).1 = some f) : CanonR g f := by
  unfold get_parents at h
  split at h
  · simp at h
  · split at h
    · simp at h
    · dsimp only at h
      split at h
      · exact ⟨_, h⟩
      · simp at h

theorem get_parents_snd_canonR {g : Gedcom} {ind m : Individual}
    (h : (get_parents g ind).2 = some m) : CanonR g m := by
  unfold get_parents at h
  split at h
  · simp at h
  · split at h
    · simp at h
    · dsimp only at h
      split at h
      · exact ⟨_, h⟩
      · simp at h

theorem get_children_canonR {g : Gedcom} {ind c : Individual}
    (h : c ∈ get_children g ind) : CanonR g c := by
  unfold get_children at h
  rw [List.mem_flatMap] at h
  obtain ⟨fam, _, hc⟩ := h
  rw [List.mem_filterMap] at hc
  obtain ⟨x, _, hx⟩ := hc
  exact ⟨x, hx⟩

/-- Case analysis on membership in `_get_neighbors`. -/
theorem get_neighbors_cases {g : Gedcom} {ind nb : Individual} {stp : PathStep}
    (h : (nb, stp) ∈ get_neighbors g ind) :
    ((get_parents g ind).1 = some nb ∧ stp = ⟨nb.xref_id, .parent, .full, true⟩) ∨
    ((get_parents g ind).2 = some nb ∧ stp = ⟨nb.xref_id, .parent, .full, false⟩) ∨
    (nb ∈ get_children g ind ∧
      stp = ⟨nb.xref_id, .child, determine_blood_type g ind nb,
             get_sex ind == some "M"⟩) := by
  unfold get_neighbors at h
  rw [List.mem_append, List.mem_append] at h
  rcases h with (h | h) | h
  · left
    rcases hf : (get_parents g ind).1 with _ | f <;> rw [hf] at h
    · simp at h
    · rw [List.mem_singleton, Prod.ext_iff] at h
      obtain ⟨h1, h2⟩ := h
      simp only at h1 h2
      subst h1
      exact ⟨rfl, h2⟩
  · right; left
    rcases hm : (get_parents g ind).2 with _ | m <;> rw [hm] at h
    · simp at h
    · rw [List.mem_singleton, Prod.ext_iff] at h
      obtain ⟨h1, h2⟩ := h
      simp only at h1 h2
      subst h1
      exact ⟨rfl, h2⟩
  · right; right
    rw [List.mem_map] at h
    obtain ⟨c, hc, he⟩ := h
    rw [Prod.ext_iff] at he
    obtain ⟨h1, h2⟩ := he
    simp only at h1 h2
    subst h1
    exact ⟨hc, h2.symm⟩

theorem get_neighbors_father {g : Gedcom} {ind f : Individual}
    (h : (get_parents g ind).1 = some f) :
    (f, (⟨f.xref_id, .parent, .full, true⟩ : PathStep)) ∈ get_neighbors g ind := by
  unfold get_neighbors
  rw [List.mem_append]
  left
  rw [List.mem_append]
  left
  rw [h]
  exact List.mem_singleton.mpr rfl

theorem get_neighbors_mother {g : Gedcom} {ind m : Individual}
    (h : (get_parents g ind).2 = some m) :
    (m, (⟨m.xref_id, .parent, .full, false⟩ : PathStep)) ∈ get_neighbors g ind := by
  unfold get_neighbors
  rw [List.mem_append]
  left
  rw [List.mem_append]
  right
  rw [h]
  exact List.mem_singleton.mpr rfl

theorem get_neighbors_child {g : Gedcom} {ind c : Individual}
    (h : c ∈ get_children g ind) :
    (c, (⟨c.xref_id, .child, determine_blood_type g ind c,
          get_sex ind == some "M"⟩ : PathStep)) ∈ get_neighbors g ind := by
  unfold get_neighbors
  rw [List.mem_append]
  right
  rw [List.mem_map]
  exact ⟨c, h, rfl⟩

theorem get_neighbors_canonR {g : Gedcom} {ind nb : Individual} {stp : PathStep}
    (h : (nb, stp) ∈ get_neighbors g ind) : CanonR g nb := by
  rcases get_neighbors_cases h with ⟨h1, _⟩ | ⟨h1, _⟩ | ⟨h1, _⟩
  · exact get_parents_fst_canonR h1
  · exact get_parents_snd_canonR h1
  · exact get_children_canonR h1

theorem get_neighbors_step_id {g : Gedcom} {ind nb : Individual} {stp : PathStep}
    (h : (nb, stp) ∈ get_neighbors g ind) : stp.individual_id = nb.xref_id := by
  rcases get_neighbors_cases h with ⟨_, h2⟩ | ⟨_, h2⟩ | ⟨_, h2⟩ <;> rw [h2]

theorem canonR_mem {g : Gedcom} {r : Individual} (h : CanonR g r) :
    r ∈ g.individuals := by
  obtain ⟨x, hx⟩ := h
  exact get_individual_mem hx

theorem get_neighbors_len_le {g : Gedcom} {ind : Individual}
    (h : ind ∈ g.individuals) : (get_neighbors g ind).length ≤ maxNbr g := by
  unfold maxNbr
  have hmem : (get_neighbors g ind).length ∈
      g.individuals.map (fun i => (get_neighbors g i).length) :=
    List.mem_map.mpr ⟨ind, h, rfl⟩
  revert hmem
  generalize g.individuals.map (fun i => (get_neighbors g i).length) = l
  intro hmem
  induction l with
  | nil => cases hmem
  | cons a t ih =>
    rcases List.mem_cons.mp hmem with h1 | h1
    · subst h1
      exact Nat.le_max_left _ _
    · exact Nat.le_trans (ih h1) (Nat.le_max_right _ _)

/-! ## Chain lemmas -/

theorem chainTo_append {g : Gedcom} {a b c : Individual}
    {s1 s2 : List PathStep} (h1 : ChainTo g a s1 b) (h2 : ChainTo g b s2 c) :
    ChainTo g a (s1 ++ s2) c := by
  induction h1 with
  | nil => simpa using h2
  | cons hmem _ ih => exact ChainTo.cons hmem (ih h2)

theorem chainTo_snoc {g : Gedcom} {a b nb : Individual} {s : List PathStep}
    {stp : PathStep} (h1 : ChainTo g a s b) (h2 : (nb, stp) ∈ get_neighbors g b) :
    ChainTo g a (s ++ [stp]) nb :=
  chainTo_append h1 (ChainTo.cons h2 (ChainTo.nil nb))

theorem chainTo_canonR {g : Gedcom} {a fin : Individual} {s : List PathStep}
    (ha : CanonR g a) (h : ChainTo g a s fin) : CanonR g fin := by
  induction h with
  | nil => exact ha
  | cons hmem _ ih => exact ih (get_neighbors_canonR hmem)

theorem chainTo_chainSat {g : Gedcom} {R : Individual → PathStep → Individual → Prop}
    (hR : ∀ cur nb stp, (nb, stp) ∈ get_neighbors g cur → R cur stp nb)
    {a fin : Individual} {s : List PathStep} (h : ChainTo g a s fin) :
    ChainSat g R a s := by
  induction h with
  | nil => exact ChainSat.nil _
  | cons hmem _ ih => exact ChainSat.cons hmem (hR _ _ _ hmem) ih

/-! ## Expansion lemmas -/

section ExpandLemmas

variable {g : Gedcom} {endId sId eId : String} {path : List PathStep}

theorem expand_eq_end {nb : Individual} {stp : PathStep}
    {rest : List (Individual × PathStep)} {vis : String → Option Nat}
    {ml : Option Nat} {ps : List RelationshipPath} (h : nb.xref_id = endId) :
    expand g endId sId eId path ((nb, stp) :: rest) vis ml ps =
      expand g endId sId eId path rest vis
        (match ml with | none => some (path.length + 1) | some m => some m)
        (ps ++ [⟨path ++ [stp], sId, eId⟩]) := by
  simp [expand, h]

theorem expand_eq_new {nb : Individual} {stp : PathStep}
    {rest : List (Individual × PathStep)} {vis : String → Option Nat}
    {ml : Option Nat} {ps : List RelationshipPath} (h : ¬ nb.xref_id = endId)
    (hv : vis nb.xref_id = none) :
    expand g endId sId eId path ((nb, stp) :: rest) vis ml ps =
      (let o := expand g endId sId eId path rest
        (fun x => if x = nb.xref_id then some (path.length + 1) else vis x) ml ps
       ⟨o.vis, o.ml, o.ps, (nb, path ++ [stp]) :: o.es⟩) := by
  simp [expand, h, hv]

theorem expand_eq_requeue {nb : Individual} {stp : PathStep}
    {rest : List (Individual × PathStep)} {vis : String → Option Nat}
    {ml : Option Nat} {ps : List RelationshipPath} {v : Nat}
    (h : ¬ nb.xref_id = endId) (hv : vis nb.xref_id = some v)
    (hle : path.length + 1 ≤ v) :
    expand g endId sId eId path ((nb, stp) :: rest) vis ml ps =
      (let o := expand g endId sId eId path rest
        (fun x => if x = nb.xref_id then some (path.length + 1) else vis x) ml ps
       ⟨o.vis, o.ml, o.ps, (nb, path ++ [stp]) :: o.es⟩) := by
  simp [expand, h, hv, hle]

theorem expand_eq_skip {nb : Individual} {stp : PathStep}
    {rest : List (Individual × PathStep)} {vis : String → Option Nat}
    {ml : Option Nat} {ps : List RelationshipPath} {v : Nat}
    (h : ¬ nb.xref_id = endId) (hv : vis nb.xref_id = some v)
    (hle : ¬ path.length + 1 ≤ v) :
    expand g endId sId eId path ((nb, stp) :: rest) vis ml ps =
      expand g endId sId eId path rest vis ml ps := by
  simp [expand, h, hv, hle]

theorem expand_ps_spec :
    ∀ (nbrs : List (Individual × PathStep)) (vis : String → Option Nat)
      (ml : Option Nat) (ps : List RelationshipPath),
    ∃ news, (expand g endId sId eId path nbrs vis ml ps).ps = ps ++ news ∧
      ∀ p ∈ news, ∃ nb stp, (nb, stp) ∈ nbrs ∧ nb.xref_id = endId ∧
        p = (⟨path ++ [stp], sId, eId⟩ : RelationshipPath) := by
  intro nbrs
  induction nbrs with
  | nil =>
    intro vis ml ps
    exact ⟨[], by simp [expand], by simp⟩
  | cons pr rest ih =>
    obtain ⟨nb, stp⟩ := pr
    intro vis ml ps
    by_cases hend : nb.xref_id = endId
    · rw [expand_eq_end hend]
      obtain ⟨news, h1, h2⟩ := ih vis _ (ps ++ [⟨path ++ [stp], sId, eId⟩])
      refine ⟨⟨path ++ [stp], sId, eId⟩ :: news, by simpa using h1, ?_⟩
      intro p hp
      rcases List.mem_cons.mp hp with h | h
      · exact ⟨nb, stp, List.mem_cons_self _ _, hend, h⟩
      · obtain ⟨nb', stp', hm, he, hq⟩ := h2 p h
        exact ⟨nb', stp', List.mem_cons_of_mem _ hm, he, hq⟩
    · have step : ∀ (vis' : String → Option Nat),
          (∃ news, (expand g endId sId eId path rest vis' ml ps).ps = ps ++ news ∧
            ∀ p ∈ news, ∃ nb' stp', (nb', stp') ∈ rest ∧ nb'.xref_id = endId ∧
              p = (⟨path ++ [stp'], sId, eId⟩ : RelationshipPath)) →
          ∃ news, (expand g endId sId eId path rest vis' ml ps).ps = ps ++ news ∧
            ∀ p ∈ news, ∃ nb' stp', (nb', stp') ∈ (nb, stp) :: rest ∧
              nb'.xref_id = endId ∧
              p = (⟨path ++ [stp'], sId, eId⟩ : RelationshipPath) := by
        intro vis' ⟨news, h1, h2⟩
        refine ⟨news, h1, ?_⟩
        intro p hp
        obtain ⟨nb', stp', hm, he, hq⟩ := h2 p hp
        exact ⟨nb', stp', List.mem_cons_of_mem _ hm, he, hq⟩
      rcases hv : vis nb.xref_id with _ | v
      · rw [expand_eq_new hend hv]
        exact step _ (ih _ ml ps)
      · by_cases hle : path.length + 1 ≤ v
        · rw [expand_eq_requeue hend hv hle]
          exact step _ (ih _ ml ps)
        · rw [expand_eq_skip hend hv hle]
          exact step _ (ih _ ml ps)

theorem expand_ps_mono {nbrs : List (Individual × PathStep)}
    {vis : String → Option Nat} {ml : Option Nat} {ps : List RelationshipPath}
    {p : RelationshipPath} (h : p ∈ ps) :
    p ∈ (expand g endId sId eId path nbrs vis ml ps).ps := by
  obtain ⟨news, h1, _⟩ := @expand_ps_spec g endId sId eId path nbrs vis ml ps
  rw [h1]
  exact List.mem_append_left _ h

theorem expand_es_spec :
    ∀ (nbrs : List (Individual × PathStep)) (vis : String → Option Nat)
      (ml : Option Nat) (ps : List RelationshipPath),
    ∀ e ∈ (expand g endId sId eId path nbrs vis ml ps).es,
      ∃ nb stp, (nb, stp) ∈ nbrs ∧ ¬ nb.xref_id = endId ∧ e = (nb, path ++ [stp]) := by
  intro nbrs
  induction nbrs with
  | nil =>
    intro vis ml ps e he
    simp [expand] at he
  | cons pr rest ih =>
    obtain ⟨nb, stp⟩ := pr
    intro vis ml ps e he
    by_cases hend : nb.xref_id = endId
    · rw [expand_eq_end hend] at he
      obtain ⟨nb', stp', hm, hne, hq⟩ := ih _ _ _ e he
      exact ⟨nb', stp', List.mem_cons_of_mem _ hm, hne, hq⟩
    · rcases hv : vis nb.xref_id with _ | v
      · rw [expand_eq_new hend hv] at he
        simp only at he
        rcases List.mem_cons.mp he with h | h
        · exact ⟨nb, stp, List.mem_cons_self _ _, hend, h⟩
        · obtain ⟨nb', stp', hm, hne, hq⟩ := ih _ _ _ e h
          exact ⟨nb', stp', List.mem_cons_of_mem _ hm, hne, hq⟩
      · by_cases hle : path.length + 1 ≤ v
        · rw [expand_eq_requeue hend hv hle] at he
          simp only at he
          rcases List.mem_cons.mp he with h | h
          · exact ⟨nb, stp, List.mem_cons_self _ _, hend, h⟩
          · obtain ⟨nb', stp', hm, hne, hq⟩ := ih _ _ _ e h
            exact ⟨nb', stp', List.mem_cons_of_mem _ hm, hne, hq⟩
        · rw [expand_eq_skip hend hv hle] at he
          obtain ⟨nb', stp', hm, hne, hq⟩ := ih _ _ _ e he
          exact ⟨nb', stp', List.mem_cons_of_mem _ hm, hne, hq⟩

theorem expand_es_len :
    ∀ (nbrs : List (Individual × PathStep)) (vis : String → Option Nat)
      (ml : Option Nat) (ps : List RelationshipPath),
    (expand g endId sId eId path nbrs vis ml ps).es.length ≤ nbrs.length := by
  intro nbrs
  induction nbrs with
  | nil =>
    intro vis ml ps
    simp [expand]
  | cons pr rest ih =>
    obtain ⟨nb, stp⟩ := pr
    intro vis ml ps
    by_cases hend : nb.xref_id = endId
    · rw [expand_eq_end hend]
      exact Nat.le_trans (ih _ _ _) (Nat.le_succ _)
    · rcases hv : vis nb.xref_id with _ | v
      · rw [expand_eq_new hend hv]
        simpa using ih _ ml ps
      · by_cases hle : path.length + 1 ≤ v
        · rw [expand_eq_requeue hend hv hle]
          simpa using ih _ ml ps
        · rw [expand_eq_skip hend hv hle]
          exact Nat.le_trans (ih _ _ _) (Nat.le_succ _)

theorem expand_ml_some {m : Nat} :
    ∀ (nbrs : List (Individual × PathStep)) (vis : String → Option Nat)
      (ml : Option Nat) (ps : List RelationshipPath), ml = some m →
    (expand g endId sId eId path nbrs vis ml ps).ml = some m := by
  intro nbrs
  induction nbrs with
  | nil =>
    intro vis ml ps h
    simpa [expand] using h
  | cons pr rest ih =>
    obtain ⟨nb, stp⟩ := pr
    intro vis ml ps h
    subst h
    by_cases hend : nb.xref_id = endId
    · rw [expand_eq_end hend]
      exact ih _ _ _ rfl
    · rcases hv : vis nb.xref_id with _ | v
      · rw [expand_eq_new hend hv]
        exact ih _ _ _ rfl
      · by_cases hle : path.length + 1 ≤ v
        · rw [expand_eq_requeue hend hv hle]
          exact ih _ _ _ rfl
        · rw [expand_eq_skip hend hv hle]
          exact ih _ _ _ rfl

theorem expand_ml_none :
    ∀ (nbrs : List (Individual × PathStep)) (vis : String → Option Nat)
      (ps : List RelationshipPath),
    ((expand g endId sId eId path nbrs vis none ps).ml = none ∧
      (expand g endId sId eId path nbrs vis none ps).ps = ps) ∨
    ((expand g endId sId eId path nbrs vis none ps).ml = some (path.length + 1) ∧
      ∃ nb stp, (nb, stp) ∈ nbrs ∧ nb.xref_id = endId) := by
  intro nbrs
  induction nbrs with
  | nil =>
    intro vis ps
    left
    simp [expand]
  | cons pr rest ih =>
    obtain ⟨nb, stp⟩ := pr
    intro vis ps
    by_cases hend : nb.xref_id = endId
    · right
      rw [expand_eq_end hend]
      exact ⟨expand_ml_some _ _ _ _ rfl, nb, stp, List.mem_cons_self _ _, hend⟩
    · have step : ∀ (vis' : String → Option Nat),
          ((expand g endId sId eId path rest vis' none ps).ml = none ∧
            (expand g endId sId eId path rest vis' none ps).ps = ps) ∨
          ((expand g endId sId eId path rest vis' none ps).ml = some (path.length + 1) ∧
            ∃ nb' stp', (nb', stp') ∈ (nb, stp) :: rest ∧ nb'.xref_id = endId) := by
        intro vis'
        rcases ih vis' ps with h | ⟨h1, nb', stp', hm, he⟩
        · exact Or.inl h
        · exact Or.inr ⟨h1, nb', stp', List.mem_cons_of_mem _ hm, he⟩
      rcases hv : vis nb.xref_id with _ | v
      · rw [expand_eq_new hend hv]
        simpa using step _
      · by_cases hle : path.length + 1 ≤ v
        · rw [expand_eq_requeue hend hv hle]
          simpa using step _
        · rw [expand_eq_skip hend hv hle]
          exact step _

theorem expand_vis_spec :
    ∀ (nbrs : List (Individual × PathStep)) (vis : String → Option Nat)
      (ml : Option Nat) (ps : List RelationshipPath) (n : String) (v : Nat),
    (expand g endId sId eId path nbrs vis ml ps).vis n = some v →
      vis n = some v ∨
      (v = path.length + 1 ∧ ∃ nb stp, (nb, stp) ∈ nbrs ∧ nb.xref_id = n) := by
  intro nbrs
  induction nbrs with
  | nil =>
    intro vis ml ps n v h
    left
    simpa [expand] using h
  | cons pr rest ih =>
    obtain ⟨nb, stp⟩ := pr
    intro vis ml ps n v h
    by_cases hend : nb.xref_id = endId
    · rw [expand_eq_end hend] at h
      rcases ih _ _ _ _ _ h with h1 | ⟨h1, nb', stp', hm, he⟩
      · exact Or.inl h1
      · exact Or.inr ⟨h1, nb', stp', List.mem_cons_of_mem _ hm, he⟩
    · have step : ∀ (vis' : String → Option Nat),
          (∀ x, vis' x = some v → vis x = some v ∨
            (v = path.length + 1 ∧ x = nb.xref_id)) →
          (expand g endId sId eId path rest vis' ml ps).vis n = some v →
          vis n = some v ∨
          (v = path.length + 1 ∧
            ∃ nb' stp', (nb', stp') ∈ (nb, stp) :: rest ∧ nb'.xref_id = n) := by
        intro vis' hdesc hh
        rcases ih _ _ _ _ _ hh with h1 | ⟨h1, nb', stp', hm, he⟩
        · rcases hdesc n h1 with h2 | ⟨h2, h3⟩
          · exact Or.inl h2
          · exact Or.inr ⟨h2, nb, stp, List.mem_cons_self _ _, h3.symm⟩
        · exact Or.inr ⟨h1, nb', stp', List.mem_cons_of_mem _ hm, he⟩
      rcases hv : vis nb.xref_id with _ | w
      · rw [expand_eq_new hend hv] at h
        simp only at h
        refine step _ ?_ h
        intro x hx
        by_cases hxe : x = nb.xref_id
        · subst hxe
          rw [if_pos rfl] at hx
          exact Or.inr ⟨(Option.some.injEq _ _).mp hx |>.symm, rfl⟩
        · rw [if_neg hxe] at hx
          exact Or.inl hx
      · by_cases hle : path.length + 1 ≤ w
        · rw [expand_eq_requeue hend hv hle] at h
          simp only at h
          refine step _ ?_ h
          intro x hx
          by_cases hxe : x = nb.xref_id
          · subst hxe
            rw [if_pos rfl] at hx
            exact Or.inr ⟨(Option.some.injEq _ _).mp hx |>.symm, rfl⟩
          · rw [if_neg hxe] at hx
            exact Or.inl hx
        · rw [expand_eq_skip hend hv hle] at h
          rcases ih _ _ _ _ _ h with h1 | ⟨h1, nb', stp', hm, he⟩
          · exact Or.inl h1
          · exact Or.inr ⟨h1, nb', stp', List.mem_cons_of_mem _ hm, he⟩

theorem expand_mem_ps {nb : Individual} {stp : PathStep} :
    ∀ (nbrs : List (Individual × PathStep)) (vis : String → Option Nat)
      (ml : Option Nat) (ps : List RelationshipPath),
    (nb, stp) ∈ nbrs → nb.xref_id = endId →
    (⟨path ++ [stp], sId, eId⟩ : RelationshipPath) ∈
      (expand g endId sId eId path nbrs vis ml ps).ps := by
  intro nbrs
  induction nbrs with
  | nil =>
    intro vis ml ps h
    cases h
  | cons pr rest ih =>
    obtain ⟨nb', stp'⟩ := pr
    intro vis ml ps hmem hend
    rcases List.mem_cons.mp hmem with h | h
    · obtain ⟨h1, h2⟩ := Prod.ext_iff.mp h
      simp only at h1 h2
      subst h1
      subst h2
      rw [expand_eq_end hend]
      exact expand_ps_mono (List.mem_append_right _ (List.mem_singleton.mpr rfl))
    · by_cases hend' : nb'.xref_id = endId
      · rw [expand_eq_end hend']
        exact ih _ _ _ h hend
      · rcases hv : vis nb'.xref_id with _ | v
        · rw [expand_eq_new hend' hv]
          exact ih _ _ _ h hend
        · by_cases hle : path.length + 1 ≤ v
          · rw [expand_eq_requeue hend' hv hle]
            exact ih _ _ _ h hend
          · rw [expand_eq_skip hend' hv hle]
            exact ih _ _ _ h hend

theorem expand_mem_es {nb : Individual} {stp : PathStep} :
    ∀ (nbrs : List (Individual × PathStep)) (vis : String → Option Nat)
      (ml : Option Nat) (ps : List RelationshipPath),
    (nb, stp) ∈ nbrs → ¬ nb.xref_id = endId →
    (∀ v, vis nb.xref_id = some v → path.length + 1 ≤ v) →
    (nb, path ++ [stp]) ∈ (expand g endId sId eId path nbrs vis ml ps).es := by
  intro nbrs
  induction nbrs with
  | nil =>
    intro vis ml ps h
    cases h
  | cons pr rest ih =>
    obtain ⟨nb', stp'⟩ := pr
    intro vis ml ps hmem hend hcond
    rcases List.mem_cons.mp hmem with h | h
    · obtain ⟨h1, h2⟩ := Prod.ext_iff.mp h
      simp only at h1 h2
      subst h1
      subst h2
      rcases hv : vis nb.xref_id with _ | v
      · rw [expand_eq_new hend hv]
        exact List.mem_cons_self _ _
      · rw [expand_eq_requeue hend hv (hcond v hv)]
        exact List.mem_cons_self _ _
    · have hcond' : ∀ (n0 : String),
          (∀ v, ((fun x => if x = n0 then some (path.length + 1) else vis x)
            nb.xref_id) = some v → path.length + 1 ≤ v) := by
        intro n0 v hv
        dsimp only at hv
        by_cases hx : nb.xref_id = n0
        · rw [if_pos hx] at hv
          exact Nat.le_of_eq ((Option.some.injEq _ _).mp hv)
        · rw [if_neg hx] at hv
          exact hcond v hv
      by_cases hend' : nb'.xref_id = endId
      · rw [expand_eq_end hend']
        exact ih _ _ _ h hend hcond
      · rcases hv : vis nb'.xref_id with _ | v
        · rw [expand_eq_new hend' hv]
          exact List.mem_cons_of_mem _ (ih _ _ _ h hend (hcond' _))
        · by_cases hle : path.length + 1 ≤ v
          · rw [expand_eq_requeue hend' hv hle]
            exact List.mem_cons_of_mem _ (ih _ _ _ h hend (hcond' _))
          · rw [expand_eq_skip hend' hv hle]
            exact ih _ _ _ h hend hcond

end ExpandLemmas

/-! ## BFS equation lemmas -/

section BfsEq

variable {g : Gedcom} {en cur : Individual} {maxD : Nat} {sId eId : String}
variable {fuel : Nat} {path : List PathStep} {rest : List (Individual × List PathStep)}
variable {vis : String → Option Nat} {ml : Option Nat} {ps : List RelationshipPath}

theorem bfsAux_eq_nil : bfsAux g en maxD sId eId fuel [] vis ml ps = some ps := by
  cases fuel <;> rfl

theorem bfsAux_eq_skip1 (h : mlSkip ml path.length = true) :
    bfsAux g en maxD sId eId (fuel + 1) ((cur, path) :: rest) vis ml ps =
      bfsAux g en maxD sId eId fuel rest vis ml ps := by
  simp [bfsAux, h]

theorem bfsAux_eq_skip2 (h1 : mlSkip ml path.length = false)
    (h2 : maxD ≤ path.length) :
    bfsAux g en maxD sId eId (fuel + 1) ((cur, path) :: rest) vis ml ps =
      bfsAux g en maxD sId eId fuel rest vis ml ps := by
  simp [bfsAux, h1, h2]

theorem bfsAux_eq_expand (h1 : mlSkip ml path.length = false)
    (h2 : ¬ maxD ≤ path.length) :
    bfsAux g en maxD sId eId (fuel + 1) ((cur, path) :: rest) vis ml ps =
      bfsAux g en maxD sId eId fuel
        (rest ++ (expand g en.xref_id sId eId path (get_neighbors g cur) vis ml ps).es)
        (expand g en.xref_id sId eId path (get_neighbors g cur) vis ml ps).vis
        (expand g en.xref_id sId eId path (get_neighbors g cur) vis ml ps).ml
        (expand g en.xref_id sId eId path (get_neighbors g cur) vis ml ps).ps := by
  simp [bfsAux, h1, h2]

end BfsEq

/-- If a recorded `min_length` is nonzero, a dequeued entry that is not
skipped has depth at most `min_length`. -/
theorem mlSkip_false_le {m d : Nat} (h : mlSkip (some m) d = false) (hm : m ≠ 0) :
    d ≤ m := by
  unfold mlSkip at h
  rcases Bool.and_eq_false_iff.mp h with h1 | h1
  · exact absurd (by simpa using h1) hm
  · have : ¬ (m < d) := by simpa using h1
    omega

/-! ## The BFS loop invariant (soundness bundle) -/

theorem BfsInv.tail {g : Gedcom} {st en : Individual} {maxD : Nat} {sId eId : String}
    {e0 : Individual × List PathStep} {rest : List (Individual × List PathStep)}
    {vis : String → Option Nat} {ml : Option Nat} {ps : List RelationshipPath}
    (h : BfsInv g st en maxD sId eId (e0 :: rest) vis ml ps) :
    BfsInv g st en maxD sId eId rest vis ml ps where
  qChain e he := h.qChain e (List.mem_cons_of_mem _ he)
  qNoEnd e he := h.qNoEnd e (List.mem_cons_of_mem _ he)
  qLen e he := h.qLen e (List.mem_cons_of_mem _ he)
  qMem e he := h.qMem e (List.mem_cons_of_mem _ he)
  vWalk := h.vWalk
  pSound := h.pSound
  mlSome := h.mlSome
  mlNone := h.mlNone
  mlBound := h.mlBound

/-- A recorded `min_length` is never zero: it is the length of a found path,
and found paths are nonempty. -/
theorem BfsInv.ml_ne_zero {g : Gedcom} {st en : Individual} {maxD : Nat}
    {sId eId : String} {q : List (Individual × List PathStep)}
    {vis : String → Option Nat} {ml : Option Nat} {ps : List RelationshipPath}
    (h : BfsInv g st en maxD sId eId q vis ml ps) {m : Nat} (hm : ml = some m) :
    m ≠ 0 := by
  obtain ⟨p, hp, hlen⟩ := h.mlSome m hm
  obtain ⟨_, _, hne, _⟩ := h.pSound p hp
  intro h0
  rw [h0] at hlen
  exact hne (List.eq_nil_of_length_eq_zero hlen)

/-- One expansion step preserves the soundness invariant. -/
theorem BfsInv.expandStep {g : Gedcom} {st en cur : Individual} {maxD : Nat}
    {sId eId : String} {path : List PathStep}
    {rest : List (Individual × List PathStep)} {vis : String → Option Nat}
    {ml : Option Nat} {ps : List RelationshipPath}
    (hinv : BfsInv g st en maxD sId eId ((cur, path) :: rest) vis ml ps)
    (hskip : mlSkip ml path.length = false) (hlen : path.length < maxD) :
    BfsInv g st en maxD sId eId
      (rest ++ (expand g en.xref_id sId eId path (get_neighbors g cur) vis ml ps).es)
      (expand g en.xref_id sId eId path (get_neighbors g cur) vis ml ps).vis
      (expand g en.xref_id sId eId path (get_neighbors g cur) vis ml ps).ml
      (expand g en.xref_id sId eId path (get_neighbors g cur) vis ml ps).ps := by
  have hheadChain : ChainTo g st path cur := hinv.qChain _ (List.mem_cons_self _ _)
  have hheadNoEnd : ∀ stp ∈ path, stp.individual_id ≠ en.xref_id :=
    hinv.qNoEnd _ (List.mem_cons_self _ _)
  obtain ⟨news, hps, hnews⟩ :=
    @expand_ps_spec g en.xref_id sId eId path (get_neighbors g cur) vis ml ps
  constructor
  · -- qChain
    intro e he
    rcases List.mem_append.mp he with h | h
    · exact hinv.qChain e (List.mem_cons_of_mem _ h)
    · obtain ⟨nb, stp, hm, _, hq⟩ := expand_es_spec _ _ _ _ e h
      rw [hq]
      exact chainTo_snoc hheadChain hm
  · -- qNoEnd
    intro e he
    rcases List.mem_append.mp he with h | h
    · exact hinv.qNoEnd e (List.mem_cons_of_mem _ h)
    · obtain ⟨nb, stp, hm, hne, hq⟩ := expand_es_spec _ _ _ _ e h
      rw [hq]
      intro stp' hstp'
      rcases List.mem_append.mp hstp' with h1 | h1
      · exact hheadNoEnd stp' h1
      · rw [List.mem_singleton.mp h1]
        rw [get_neighbors_step_id hm]
        exact hne
  · -- qLen
    intro e he
    rcases List.mem_append.mp he with h | h
    · exact hinv.qLen e (List.mem_cons_of_mem _ h)
    · obtain ⟨nb, stp, hm, _, hq⟩ := expand_es_spec _ _ _ _ e h
      rw [hq]
      simpa using hlen
  · -- qMem
    intro e he
    rcases List.mem_append.mp he with h | h
    · exact hinv.qMem e (List.mem_cons_of_mem _ h)
    · obtain ⟨nb, stp, hm, _, hq⟩ := expand_es_spec _ _ _ _ e h
      rw [hq]
      exact canonR_mem (get_neighbors_canonR hm)
  · -- vWalk
    intro n v hv
    rcases expand_vis_spec _ _ _ _ n v hv with h | ⟨hveq, nb, stp, hm, hxr⟩
    · exact hinv.vWalk n v h
    · exact ⟨path ++ [stp], nb, chainTo_snoc hheadChain hm, hxr, by simpa using hveq.symm⟩
  · -- pSound
    intro p hp
    rw [hps] at hp
    rcases List.mem_append.mp hp with h | h
    · exact hinv.pSound p h
    · obtain ⟨nb, stp, hm, hend, hq⟩ := hnews p h
      subst hq
      refine ⟨rfl, rfl, by simp, ⟨nb, chainTo_snoc hheadChain hm, hend⟩, ?_, by simpa using hlen⟩
      rw [List.dropLast_concat]
      exact hheadNoEnd
  · -- mlSome
    intro m hm
    rcases hml : ml with _ | m0 <;> rw [hml] at hps hm
    · rcases @expand_ml_none g en.xref_id sId eId path (get_neighbors g cur) vis ps with
        ⟨h1, _⟩ | ⟨h1, nb, stp, hmm, hend⟩
      · rw [hm] at h1; cases h1
      · rw [hm] at h1
        have hmeq := (Option.some.injEq _ _).mp h1
        refine ⟨⟨path ++ [stp], sId, eId⟩, expand_mem_ps _ _ _ _ hmm hend, ?_⟩
        simp [← hmeq]
    · have hsome := @expand_ml_some g en.xref_id sId eId path m0 (get_neighbors g cur) vis (some m0) ps rfl
      rw [hm] at hsome
      have hmeq := (Option.some.injEq _ _).mp hsome
      obtain ⟨p, hp, hplen⟩ := hinv.mlSome m0 hml
      refine ⟨p, ?_, by omega⟩
      rw [hps]
      exact List.mem_append_left _ hp
  · -- mlNone
    intro hn
    rcases hml : ml with _ | m0 <;> rw [hml] at hps hn
    · rcases @expand_ml_none g en.xref_id sId eId path (get_neighbors g cur) vis ps with
        ⟨_, h2⟩ | ⟨h1, _⟩
      · rw [hps] at h2
        have hnil : news = [] := by
          have h3 : ps ++ news = ps ++ [] := by simpa using h2
          exact List.append_cancel_left h3
        rw [hps, hnil, List.append_nil]
        exact hinv.mlNone hml
      · rw [hn] at h1; cases h1
    · have hsome := @expand_ml_some g en.xref_id sId eId path m0 (get_neighbors g cur) vis (some m0) ps rfl
      rw [hn] at hsome
      cases hsome
  · -- mlBound
    intro m hm p hp
    rw [hps] at hp
    rcases hml : ml with _ | m0 <;> rw [hml] at hps hm
    · rcases @expand_ml_none g en.xref_id sId eId path (get_neighbors g cur) vis ps with
        ⟨h1, _⟩ | ⟨h1, _⟩
      · rw [hm] at h1; cases h1
      · rw [hm] at h1
        have hmeq := (Option.some.injEq _ _).mp h1
        rcases List.mem_append.mp hp with h | h
        · have hempty := hinv.mlNone hml
          rw [hempty] at h
          cases h
        · obtain ⟨nb, stp, _, _, hq⟩ := hnews p h
          subst hq
          simp [← hmeq]
    · have hsome := @expand_ml_some g en.xref_id sId eId path m0 (get_neighbors g cur) vis (some m0) ps rfl
      rw [hm] at hsome
      have hmeq := (Option.some.injEq _ _).mp hsome
      subst hmeq
      rcases List.mem_append.mp hp with h | h
      · exact hinv.mlBound m hml p h
      · obtain ⟨nb, stp, _, _, hq⟩ := hnews p h
        subst hq
        have hm0 : m ≠ 0 := hinv.ml_ne_zero hml
        have hdle : path.length ≤ m := mlSkip_false_le (hml ▸ hskip) hm0
        simp
        omega

/-- Master soundness lemma: over any completed BFS run, all output paths
are connecting walks from start to end, avoid the end individual before the
final step, and respect the depth bound. -/
theorem bfsAux_sound {g : Gedcom} {st en : Individual} {maxD : Nat} {sId eId : String} :
    ∀ (fuel : Nat) (q : List (Individual × List PathStep))
      (vis : String → Option Nat) (ml : Option Nat) (ps out : List RelationshipPath),
    BfsInv g st en maxD sId eId q vis ml ps →
    bfsAux g en maxD sId eId fuel q vis ml ps = some out →
    ∀ p ∈ out, p.start_id = sId ∧ p.end_id = eId ∧ p.steps ≠ [] ∧
      (∃ fin, ChainTo g st p.steps fin ∧ fin.xref_id = en.xref_id) ∧
      (∀ stp ∈ p.steps.dropLast, stp.individual_id ≠ en.xref_id) ∧
      p.steps.length ≤ maxD := by
  intro fuel
  induction fuel with
  | zero =>
    intro q vis ml ps out hinv hrun
    cases q with
    | nil =>
      rw [bfsAux_eq_nil] at hrun
      rw [← (Option.some.injEq _ _).mp hrun]
      exact hinv.pSound
    | cons e rest => cases hrun
  | succ n ih =>
    intro q vis ml ps out hinv hrun
    cases q with
    | nil =>
      rw [bfsAux_eq_nil] at hrun
      rw [← (Option.some.injEq _ _).mp hrun]
      exact hinv.pSound
    | cons e rest =>
      obtain ⟨cur, path⟩ := e
      rcases hskip : mlSkip ml path.length with _ | _
      · by_cases hd : maxD ≤ path.length
        · rw [bfsAux_eq_skip2 hskip hd] at hrun
          exact ih rest vis ml ps out hinv.tail hrun
        · rw [bfsAux_eq_expand hskip hd] at hrun
          exact ih _ _ _ _ out (hinv.expandStep hskip (Nat.lt_of_not_le hd)) hrun
      · rw [bfsAux_eq_skip1 hskip] at hrun
        exact ih rest vis ml ps out hinv.tail hrun

/-- The initial BFS state satisfies the soundness invariant. -/
theorem BfsInv.initial {g : Gedcom} {st : Individual} (en : Individual)
    (maxD : Nat) {sId : String} (eId : String)
    (hst : get_individual g sId = some st) :
    BfsInv g st en maxD sId eId [(st, [])]
      (fun x => if x = st.xref_id then some 0 else none) none [] where
  qChain e he := by
    rw [List.mem_singleton.mp he]
    exact ChainTo.nil st
  qNoEnd e he := by
    rw [List.mem_singleton.mp he]
    intro stp hstp
    cases hstp
  qLen e he := by
    rw [List.mem_singleton.mp he]
    exact Nat.zero_le _
  qMem e he := by
    rw [List.mem_singleton.mp he]
    exact get_individual_mem hst
  vWalk n v hv := by
    by_cases hx : n = st.xref_id
    · rw [if_pos hx] at hv
      exact ⟨[], st, ChainTo.nil st, hx.symm, ((Option.some.injEq _ _).mp hv).symm ▸ rfl⟩
    · rw [if_neg hx] at hv
      cases hv
  pSound p hp := by cases hp
  mlSome m hm := by cases hm
  mlNone _ := rfl
  mlBound m hm := by cases hm

/-! ## Termination of the BFS -/

theorem entryWeight_pos {maxD B : Nat} (e : Individual × List PathStep) :
    1 ≤ entryWeight maxD B e :=
  Nat.one_le_pow _ _ (Nat.succ_pos B)

/-- With enough fuel relative to the potential, the BFS completes. -/
theorem bfsAux_terminates {g : Gedcom} {en : Individual} {maxD : Nat}
    {sId eId : String} :
    ∀ (fuel : Nat) (q : List (Individual × List PathStep))
      (vis : String → Option Nat) (ml : Option Nat) (ps : List RelationshipPath),
    (∀ e ∈ q, e.1 ∈ g.individuals) → (∀ e ∈ q, e.2.length ≤ maxD) →
    qPot maxD (maxNbr g) q < fuel →
    ∃ out, bfsAux g en maxD sId eId fuel q vis ml ps = some out := by
  intro fuel
  induction fuel with
  | zero =>
    intro q vis ml ps _ _ hpot
    exact absurd hpot (Nat.not_lt_zero _)
  | succ n ih =>
    intro q vis ml ps hmem hlen hpot
    cases q with
    | nil => exact ⟨ps, bfsAux_eq_nil⟩
    | cons e rest =>
      obtain ⟨cur, path⟩ := e
      have hwpos : 1 ≤ entryWeight maxD (maxNbr g) (cur, path) := entryWeight_pos _
      have hsplit : qPot maxD (maxNbr g) ((cur, path) :: rest) =
          entryWeight maxD (maxNbr g) (cur, path) + qPot maxD (maxNbr g) rest := by
        simp [qPot]
      have hrestmem : ∀ e ∈ rest, e.1 ∈ g.individuals :=
        fun e he => hmem e (List.mem_cons_of_mem _ he)
      have hrestlen : ∀ e ∈ rest, e.2.length ≤ maxD :=
        fun e he => hlen e (List.mem_cons_of_mem _ he)
      have hrestpot : qPot maxD (maxNbr g) rest < n := by omega
      rcases hskip : mlSkip ml path.length with _ | _
      · by_cases hd : maxD ≤ path.length
        · obtain ⟨out, hout⟩ := ih rest vis ml ps hrestmem hrestlen hrestpot
          exact ⟨out, by rw [bfsAux_eq_skip2 hskip hd]; exact hout⟩
        · -- expansion step
          have hdlt : path.length < maxD := Nat.lt_of_not_le hd
          have hcurmem : cur ∈ g.individuals := hmem _ (List.mem_cons_self _ _)
          have hnbrs : (get_neighbors g cur).length ≤ maxNbr g :=
            get_neighbors_len_le hcurmem
          have hes := @expand_es_spec g en.xref_id sId eId path
            (get_neighbors g cur) vis ml ps
          have heslen := @expand_es_len g en.xref_id sId eId path
            (get_neighbors g cur) vis ml ps
          set o := expand g en.xref_id sId eId path (get_neighbors g cur) vis ml ps with ho
          -- each new entry has depth path.length + 1 and weight (B+1)^(maxD-(path.length+1))
          have hesw : ∀ w ∈ o.es.map (entryWeight maxD (maxNbr g)),
              w ≤ (maxNbr g + 1) ^ (maxD - (path.length + 1)) := by
            intro w hw
            rw [List.mem_map] at hw
            obtain ⟨e, he, hweq⟩ := hw
            obtain ⟨nb, stp, _, _, heq⟩ := hes e he
            rw [← hweq, heq]
            simp [entryWeight]
          have hsum : (o.es.map (entryWeight maxD (maxNbr g))).sum ≤
              o.es.length * (maxNbr g + 1) ^ (maxD - (path.length + 1)) := by
            have := List.sum_le_card_nsmul (o.es.map (entryWeight maxD (maxNbr g)))
              ((maxNbr g + 1) ^ (maxD - (path.length + 1))) hesw
            simpa [smul_eq_mul] using this
          have hespot : qPot maxD (maxNbr g) o.es <
              entryWeight maxD (maxNbr g) (cur, path) := by
            have hexp : maxD - path.length = (maxD - (path.length + 1)) + 1 := by omega
            have hw : entryWeight maxD (maxNbr g) (cur, path) =
                (maxNbr g + 1) * (maxNbr g + 1) ^ (maxD - (path.length + 1)) := by
              simp only [entryWeight, hexp]
              ring
            have hxpos : 0 < (maxNbr g + 1) ^ (maxD - (path.length + 1)) :=
              Nat.pos_pow_of_pos _ (Nat.succ_pos _)
            have hcard : o.es.length ≤ maxNbr g := Nat.le_trans heslen hnbrs
            calc qPot maxD (maxNbr g) o.es
                ≤ o.es.length * (maxNbr g + 1) ^ (maxD - (path.length + 1)) := hsum
              _ ≤ maxNbr g * (maxNbr g + 1) ^ (maxD - (path.length + 1)) :=
                  Nat.mul_le_mul_right _ hcard
              _ < (maxNbr g + 1) * (maxNbr g + 1) ^ (maxD - (path.length + 1)) := by
                  exact (Nat.mul_lt_mul_right hxpos).mpr (Nat.lt_succ_self _)
              _ = entryWeight maxD (maxNbr g) (cur, path) := hw.symm
          have hqpot : qPot maxD (maxNbr g) (rest ++ o.es) < n := by
            have : qPot maxD (maxNbr g) (rest ++ o.es) =
                qPot maxD (maxNbr g) rest + qPot maxD (maxNbr g) o.es := by
              simp [qPot]
            omega
          have hmem' : ∀ e ∈ rest ++ o.es, e.1 ∈ g.individuals := by
            intro e he
            rcases List.mem_append.mp he with h | h
            · exact hrestmem e h
            · obtain ⟨nb, stp, hm, _, heq⟩ := hes e h
              rw [heq]
              exact canonR_mem (get_neighbors_canonR hm)
          have hlen' : ∀ e ∈ rest ++ o.es, e.2.length ≤ maxD := by
            intro e he
            rcases List.mem_append.mp he with h | h
            · exact hrestlen e h
            · obtain ⟨nb, stp, _, _, heq⟩ := hes e h
              rw [heq]
              simpa using hdlt
          obtain ⟨out, hout⟩ := ih (rest ++ o.es) o.vis o.ml o.ps hmem' hlen' hqpot
          exact ⟨out, by rw [bfsAux_eq_expand hskip hd]; exact hout⟩
      · obtain ⟨out, hout⟩ := ih rest vis ml ps hrestmem hrestlen hrestpot
        exact ⟨out, by rw [bfsAux_eq_skip1 hskip]; exact hout⟩

/-- `bfsRun` always completes: the supplied fuel is sufficient. -/
theorem bfsRun_some (g : Gedcom) (start_id end_id : String) (maxDepth : Nat) :
    ∃ out, bfsRun g start_id end_id maxDepth = some out := by
  unfold bfsRun
  rcases hs : get_individual g start_id with _ | st
  · exact ⟨[], rfl⟩
  rcases he : get_individual g end_id with _ | en
  · exact ⟨[], rfl⟩
  dsimp only
  by_cases heq : st.xref_id = en.xref_id
  · rw [if_pos heq]
    exact ⟨_, rfl⟩
  rw [if_neg heq]
  apply bfsAux_terminates
  · intro e hmem
    rw [List.mem_singleton.mp hmem]
    exact get_individual_mem hs
  · intro e hmem
    rw [List.mem_singleton.mp hmem]
    exact Nat.zero_le _
  · show qPot maxDepth (maxNbr g) [(st, [])] < bfsFuel g maxDepth
    unfold bfsFuel qPot entryWeight
    simp

/-- The public function equals any completed run. -/
theorem find_eq_bfsRun {g : Gedcom} {s e : String} {d : Nat}
    {out : List RelationshipPath} (h : bfsRun g s e d = some out) :
    find_relationship_paths g s e d = out := by
  unfold find_relationship_paths
  rw [h]
  rfl

/-! ## BFS completeness machinery -/

theorem pairwise_const_len {c : Nat} :
    ∀ (l : List (Individual × List PathStep)), (∀ e ∈ l, e.2.length = c) →
    List.Pairwise depthLe l := by
  intro l
  induction l with
  | nil => intro _; exact List.Pairwise.nil
  | cons a t ih =>
    intro h
    refine List.Pairwise.cons ?_ (ih (fun e he => h e (List.mem_cons_of_mem _ he)))
    intro b hb
    unfold depthLe
    rw [h a (List.mem_cons_self _ _), h b (List.mem_cons_of_mem _ hb)]

/-- A walk ending in a record with the end individual's xref is at least as
long as the minimal walk; a proper prefix of the minimal walk therefore never
ends at the end individual. -/
theorem minWalk_prefix_not_end {g : Gedcom} {st en : Individual}
    {W : List PathStep} {wEnd : Individual} (hmw : MinWalk g st en W wEnd)
    {pre suf : List PathStep} {mid : Individual} (hsplit : pre ++ suf = W)
    (hsufne : suf ≠ []) (hpre : ChainTo g st pre mid) :
    mid.xref_id ≠ en.xref_id := by
  intro hx
  have := hmw.minimal pre mid hpre hx
  have hlen : W.length = pre.length + suf.length := by
    rw [← hsplit, List.length_append]
  have : suf.length ≠ 0 := fun h0 => hsufne (List.eq_nil_of_length_eq_zero h0)
  omega

/-- Master completeness lemma: over any completed BFS run whose state
satisfies the soundness invariant, the depth ordering invariants, the
completeness invariant for a minimal walk `W` of length at most `maxD`, and
whose recorded `min_length` (if any) equals `W`'s length, the output contains
a path with steps `W` and every output path is at most one step longer. -/
theorem bfsAux_complete {g : Gedcom} {st en : Individual} {maxD : Nat}
    {sId eId : String} {W : List PathStep} {wEnd : Individual}
    (hstC : CanonR g st) (hmw : MinWalk g st en W wEnd) (hL : W.length ≤ maxD) :
    ∀ (fuel : Nat) (q : List (Individual × List PathStep))
      (vis : String → Option Nat) (ml : Option Nat) (ps out : List RelationshipPath),
    BfsInv g st en maxD sId eId q vis ml ps →
    List.Pairwise depthLe q →
    (∀ e1 ∈ q, ∀ e2 ∈ q, e2.2.length ≤ e1.2.length + 1) →
    CInv g st wEnd W q ps →
    (∀ m, ml = some m → m = W.length) →
    bfsAux g en maxD sId eId fuel q vis ml ps = some out →
    (∃ p ∈ out, p.steps = W) ∧ (∀ p ∈ out, p.steps.length ≤ W.length + 1) := by
  intro fuel
  induction fuel with
  | zero =>
    intro q vis ml ps out hinv hsort hwnd hcinv hmleq hrun
    cases q with
    | nil =>
      rw [bfsAux_eq_nil] at hrun
      have hout : out = ps := ((Option.some.injEq _ _).mp hrun).symm
      subst hout
      rcases hcinv with ⟨p, hp, hpw⟩ | ⟨pre, suf, mid, _, _, _, _, hq⟩
      · refine ⟨⟨p, hp, hpw⟩, ?_⟩
        intro p' hp'
        rcases hml : ml with _ | m
        · rw [hinv.mlNone hml] at hp
          cases hp
        · have := hinv.mlBound m hml p' hp'
          rw [hmleq m hml] at this
          exact this
      · cases hq
    | cons e rest => cases hrun
  | succ n ih =>
    intro q vis ml ps out hinv hsort hwnd hcinv hmleq hrun
    cases q with
    | nil =>
      rw [bfsAux_eq_nil] at hrun
      have hout : out = ps := ((Option.some.injEq _ _).mp hrun).symm
      subst hout
      rcases hcinv with ⟨p, hp, hpw⟩ | ⟨pre, suf, mid, _, _, _, _, hq⟩
      · refine ⟨⟨p, hp, hpw⟩, ?_⟩
        intro p' hp'
        rcases hml : ml with _ | m
        · rw [hinv.mlNone hml] at hp
          cases hp
        · have := hinv.mlBound m hml p' hp'
          rw [hmleq m hml] at this
          exact this
      · cases hq
    | cons e rest =>
      obtain ⟨cur, path⟩ := e
      -- facts about a queued proper prefix of W
      have hPreFacts : ∀ (pre suf : List PathStep), pre ++ suf = W → suf ≠ [] →
          pre.length + suf.length = W.length ∧ pre.length < W.length := by
        intro pre suf hsplit hsufne
        have h1 : W.length = pre.length + suf.length := by
          rw [← hsplit, List.length_append]
        have h2 : suf.length ≠ 0 :=
          fun h0 => hsufne (List.eq_nil_of_length_eq_zero h0)
        omega
      have hsort' : List.Pairwise depthLe rest := (List.pairwise_cons.mp hsort).2
      have hheadle : ∀ e ∈ rest, path.length ≤ e.2.length :=
        fun e he => (List.pairwise_cons.mp hsort).1 e he
      have hwnd' : ∀ e1 ∈ rest, ∀ e2 ∈ rest, e2.2.length ≤ e1.2.length + 1 :=
        fun e1 h1 e2 h2 =>
          hwnd e1 (List.mem_cons_of_mem _ h1) e2 (List.mem_cons_of_mem _ h2)
      have hwndHead : ∀ e2 ∈ rest, e2.2.length ≤ path.length + 1 := by
        intro e2 h2
        have := hwnd (cur, path) (List.mem_cons_self _ _) e2
          (List.mem_cons_of_mem _ h2)
        simpa using this
      rcases hskip : mlSkip ml path.length with _ | _
      · by_cases hd : maxD ≤ path.length
        · -- depth-bound skip: the queued W-prefix cannot be the head
          rw [bfsAux_eq_skip2 hskip hd] at hrun
          refine ih rest vis ml ps out hinv.tail hsort' hwnd' ?_ hmleq hrun
          rcases hcinv with hl | ⟨pre, suf, mid, hsplit, hsufne, hpre, hsuf, hq⟩
          · exact Or.inl hl
          rcases List.mem_cons.mp hq with hhead | htail
          · obtain ⟨h1, h2⟩ := Prod.ext_iff.mp hhead
            simp only at h1 h2
            obtain ⟨_, hlt⟩ := hPreFacts pre suf hsplit hsufne
            exfalso
            rw [← h2] at hd
            omega
          · exact Or.inr ⟨pre, suf, mid, hsplit, hsufne, hpre, hsuf, htail⟩
        · -- expansion step
          rw [bfsAux_eq_expand hskip hd] at hrun
          have hdlt : path.length < maxD := Nat.lt_of_not_le hd
          have hheadChain : ChainTo g st path cur :=
            hinv.qChain _ (List.mem_cons_self _ _)
          have hes := @expand_es_spec g en.xref_id sId eId path
            (get_neighbors g cur) vis ml ps
          have heslen1 : ∀ e ∈
              (expand g en.xref_id sId eId path (get_neighbors g cur) vis ml ps).es,
              e.2.length = path.length + 1 := by
            intro e he
            obtain ⟨nb, stp, _, _, heq⟩ := hes e he
            rw [heq]
            simp
          -- depth ordering for the new queue
          have hsortNew : List.Pairwise depthLe (rest ++
              (expand g en.xref_id sId eId path (get_neighbors g cur) vis ml ps).es) := by
            rw [List.pairwise_append]
            refine ⟨hsort', pairwise_const_len _ heslen1, ?_⟩
            intro a ha b hb
            unfold depthLe
            rw [heslen1 b hb]
            have := hwndHead a ha
            omega
          have hwndNew : ∀ e1 ∈ rest ++
              (expand g en.xref_id sId eId path (get_neighbors g cur) vis ml ps).es,
              ∀ e2 ∈ rest ++
              (expand g en.xref_id sId eId path (get_neighbors g cur) vis ml ps).es,
              e2.2.length ≤ e1.2.length + 1 := by
            intro e1 h1 e2 h2
            rcases List.mem_append.mp h1 with h1' | h1' <;>
              rcases List.mem_append.mp h2 with h2' | h2'
            · exact hwnd' e1 h1' e2 h2'
            · rw [heslen1 e2 h2']
              have := hheadle e1 h1'
              omega
            · rw [heslen1 e1 h1']
              have := hwndHead e2 h2'
              omega
            · rw [heslen1 e1 h1', heslen1 e2 h2']
              omega
          -- min-length invariant for the new state
          have hmleqNew : ∀ m,
              (expand g en.xref_id sId eId path (get_neighbors g cur) vis ml ps).ml =
                some m → m = W.length := by
            intro m hm
            rcases hml : ml with _ | m0 <;> rw [hml] at hm
            · rcases @expand_ml_none g en.xref_id sId eId path
                (get_neighbors g cur) vis ps with
                ⟨h1, _⟩ | ⟨h1, nb, stp, hmm, hend⟩
              · rw [hm] at h1
                cases h1
              · rw [hm] at h1
                have hmeq := (Option.some.injEq _ _).mp h1
                -- m = path.length + 1; show it equals W.length
                have hge : W.length ≤ (path ++ [stp]).length :=
                  hmw.minimal (path ++ [stp]) nb (chainTo_snoc hheadChain hmm) hend
                rw [List.length_append] at hge
                -- the queued W-prefix bounds path.length from below
                have hps0 : ps = [] := hinv.mlNone hml
                rcases hcinv with ⟨p, hp, _⟩ |
                  ⟨pre, suf, mid, hsplit, hsufne, hpre, hsuf, hq⟩
                · rw [hps0] at hp
                  cases hp
                · obtain ⟨_, hlt⟩ := hPreFacts pre suf hsplit hsufne
                  have hdle : path.length ≤ pre.length := by
                    rcases List.mem_cons.mp hq with hhead | htail
                    · obtain ⟨_, h2⟩ := Prod.ext_iff.mp hhead
                      simp only at h2
                      rw [h2]
                    · exact hheadle _ htail
                  simp at hmeq hge
                  omega
            · have hsome := @expand_ml_some g en.xref_id sId eId path m0
                (get_neighbors g cur) vis (some m0) ps rfl
              rw [hm] at hsome
              have hmeq := (Option.some.injEq _ _).mp hsome
              rw [hmeq]
              exact hmleq m0 hml
          -- completeness invariant for the new state
          have hcinvNew : CInv g st wEnd W (rest ++
              (expand g en.xref_id sId eId path (get_neighbors g cur) vis ml ps).es)
              (expand g en.xref_id sId eId path (get_neighbors g cur) vis ml ps).ps := by
            rcases hcinv with ⟨p, hp, hpw⟩ |
              ⟨pre, suf, mid, hsplit, hsufne, hpre, hsuf, hq⟩
            · exact Or.inl ⟨p, expand_ps_mono hp, hpw⟩
            rcases List.mem_cons.mp hq with hhead | htail
            · -- the dequeued entry is the W-prefix: it advances one step
              obtain ⟨h1, h2⟩ := Prod.ext_iff.mp hhead
              simp only at h1 h2
              subst h1
              subst h2
              cases suf with
              | nil => exact absurd rfl hsufne
              | cons s1 suf' =>
                cases hsuf with
                | cons hmem1 hsuf' =>
                  rename_i nb1
                  cases suf' with
                  | nil =>
                    -- the walk completes: its path is appended
                    cases hsuf'
                    left
                    refine ⟨⟨pre ++ [s1], sId, eId⟩, ?_, by rw [← hsplit]⟩
                    exact expand_mem_ps _ _ _ _ hmem1 hmw.endx
                  | cons s2 suf'' =>
                    -- the walk advances: its longer prefix is enqueued
                    right
                    have hne1 : ¬ nb1.xref_id = en.xref_id := by
                      apply @minWalk_prefix_not_end g st en W wEnd hmw
                        (pre ++ [s1]) (s2 :: suf'') nb1
                      · rw [← hsplit]
                        simp
                      · simp
                      · exact chainTo_snoc hpre hmem1
                    have hcond : ∀ v, vis nb1.xref_id = some v →
                        pre.length + 1 ≤ v := by
                      intro v hv
                      obtain ⟨U, finU, hU, hUx, hUlen⟩ := hinv.vWalk _ _ hv
                      have hfin : finU = nb1 :=
                        canonR_inj (chainTo_canonR hstC hU)
                          (get_neighbors_canonR hmem1) (by rw [hUx])
                      subst hfin
                      have hcomp : ChainTo g st (U ++ (s2 :: suf'')) wEnd :=
                        chainTo_append hU hsuf'
                      have hmin2 := hmw.minimal _ _ hcomp hmw.endx
                      have hWlen : W.length =
                          pre.length + 1 + (s2 :: suf'').length := by
                        rw [← hsplit]
                        simp
                        omega
                      rw [List.length_append] at hmin2
                      omega
                    refine ⟨pre ++ [s1], s2 :: suf'', nb1, ?_, by simp,
                      chainTo_snoc hpre hmem1, hsuf', ?_⟩
                    · rw [← hsplit]
                      simp
                    · apply List.mem_append_right
                      exact expand_mem_es _ _ _ _ hmem1 hne1 hcond
            · exact Or.inr ⟨pre, suf, mid, hsplit, hsufne, hpre, hsuf,
                List.mem_append_left _ htail⟩
          exact ih _ _ _ _ out
            (hinv.expandStep hskip hdlt) hsortNew hwndNew hcinvNew hmleqNew hrun
      · -- min-length skip: the queued W-prefix cannot be the head
        rw [bfsAux_eq_skip1 hskip] at hrun
        refine ih rest vis ml ps out hinv.tail hsort' hwnd' ?_ hmleq hrun
        rcases hcinv with hl | ⟨pre, suf, mid, hsplit, hsufne, hpre, hsuf, hq⟩
        · exact Or.inl hl
        rcases List.mem_cons.mp hq with hhead | htail
        · obtain ⟨h1, h2⟩ := Prod.ext_iff.mp hhead
          simp only at h1 h2
          obtain ⟨_, hlt⟩ := hPreFacts pre suf hsplit hsufne
          exfalso
          -- the skip test succeeded: ml = some m, m ≠ 0, m < path.length
          rcases hml : ml with _ | m
          · rw [hml] at hskip
            cases hskip
          · rw [hml] at hskip
            unfold mlSkip at hskip
            rcases Bool.and_eq_true_iff.mp hskip with ⟨_, hlt2⟩
            have hmlt : m < path.length := by simpa using hlt2
            have hmW := hmleq m hml
            rw [← h2] at hmlt
            omega
        · exact Or.inr ⟨pre, suf, mid, hsplit, hsufne, hpre, hsuf, htail⟩

/-- A minimal walk between distinct individuals is nonempty. -/
theorem minWalk_ne_nil {g : Gedcom} {st en : Individual} {W : List PathStep}
    {wEnd : Individual} (hmw : MinWalk g st en W wEnd)
    (hne : st.xref_id ≠ en.xref_id) : W ≠ [] := by
  intro h0
  subst h0
  cases hmw.chain
  exact hne hmw.endx

/-- Soundness of `find_relationship_paths` for distinct resolvable ids. -/
theorem find_sound {g : Gedcom} {s e : String} {d : Nat} {si ei : Individual}
    (hs : get_individual g s = some si) (he : get_individual g e = some ei)
    (hne : si.xref_id ≠ ei.xref_id) :
    ∀ p ∈ find_relationship_paths g s e d, p.start_id = s ∧ p.end_id = e ∧
      p.steps ≠ [] ∧
      (∃ fin, ChainTo g si p.steps fin ∧ fin.xref_id = ei.xref_id) ∧
      (∀ stp ∈ p.steps.dropLast, stp.individual_id ≠ ei.xref_id) ∧
      p.steps.length ≤ d := by
  obtain ⟨out, hrun⟩ := bfsRun_some g s e d
  have hfind := find_eq_bfsRun hrun
  unfold bfsRun at hrun
  rw [hs, he] at hrun
  dsimp only at hrun
  rw [if_neg hne] at hrun
  rw [hfind]
  exact bfsAux_sound _ _ _ _ _ out (BfsInv.initial ei d e hs) hrun

/-- Completeness of `find_relationship_paths`: a minimal connecting walk
within the depth bound is returned, and every returned path is at most one
step longer than it. -/
theorem find_complete_minWalk {g : Gedcom} {s e : String} {d : Nat}
    {si ei : Individual} {W : List PathStep} {wEnd : Individual}
    (hs : get_individual g s = some si) (he : get_individual g e = some ei)
    (hne : si.xref_id ≠ ei.xref_id) (hmw : MinWalk g si ei W wEnd)
    (hL : W.length ≤ d) :
    (∃ p ∈ find_relationship_paths g s e d, p.steps = W) ∧
    (∀ p ∈ find_relationship_paths g s e d, p.steps.length ≤ W.length + 1) := by
  obtain ⟨out, hrun⟩ := bfsRun_some g s e d
  have hfind := find_eq_bfsRun hrun
  unfold bfsRun at hrun
  rw [hs, he] at hrun
  dsimp only at hrun
  rw [if_neg hne] at hrun
  rw [hfind]
  refine bfsAux_complete (get_individual_canonR hs) hmw hL _ _ _ _ _ out
    (BfsInv.initial ei d e hs) (List.pairwise_singleton _ _) ?_ ?_ ?_ hrun
  · intro e1 h1 e2 h2
    rw [List.mem_singleton.mp h1, List.mem_singleton.mp h2]
    omega
  · right
    exact ⟨[], W, si, by simp, minWalk_ne_nil hmw hne, ChainTo.nil si, hmw.chain,
      List.mem_singleton.mpr rfl⟩
  · intro m hm
    cases hm

/-- Any connecting walk dominates some minimal connecting walk. -/
theorem exists_minWalk {g : Gedcom} {si ei : Individual} {steps : List PathStep}
    {fin : Individual} (hc : ChainTo g si steps fin)
    (hx : fin.xref_id = ei.xref_id) :
    ∃ W wEnd, MinWalk g si ei W wEnd ∧ W.length ≤ steps.length := by
  suffices h : ∀ (n : Nat) (steps : List PathStep) (fin : Individual),
      steps.length = n → ChainTo g si steps fin → fin.xref_id = ei.xref_id →
      ∃ W wEnd, MinWalk g si ei W wEnd ∧ W.length ≤ steps.length by
    exact h steps.length steps fin rfl hc hx
  intro n
  induction n using Nat.strong_induction_on with
  | _ n ih =>
    intro steps fin hn hc hx
    by_cases hminimal : ∀ steps' fin', ChainTo g si steps' fin' →
        fin'.xref_id = ei.xref_id → steps.length ≤ steps'.length
    · exact ⟨steps, fin, ⟨hc, hx, hminimal⟩, Nat.le_refl _⟩
    · push_neg at hminimal
      obtain ⟨steps', fin', hc', hx', hlt⟩ := hminimal
      obtain ⟨W, wEnd, hmw, hWle⟩ :=
        ih steps'.length (by omega) steps' fin' rfl hc' hx'
      exact ⟨W, wEnd, hmw, by omega⟩

/-! ## Generation walk lemmas -/

section GenWalk

variable {g : Gedcom} {maxGen : Nat}

theorem genWalkAux_eq_nil {fuel : Nat} {vis : String → Bool}
    {acc : List (Individual × Nat)} :
    genWalkAux g maxGen fuel [] vis acc = some acc := by
  cases fuel <;> rfl

theorem genWalkAux_eq_step_lt {fuel gen : Nat} {cur : Individual}
    {rest acc : List (Individual × Nat)} {vis : String → Bool}
    (h : gen < maxGen) :
    genWalkAux g maxGen (fuel + 1) ((cur, gen) :: rest) vis acc =
      genWalkAux g maxGen fuel
        (rest ++ (enqueueParents (gen + 1)
          [(get_parents g cur).1, (get_parents g cur).2] vis).2)
        (enqueueParents (gen + 1)
          [(get_parents g cur).1, (get_parents g cur).2] vis).1
        (acc ++ [(cur, gen)]) := by
  simp [genWalkAux, h]

theorem genWalkAux_eq_step_ge {fuel gen : Nat} {cur : Individual}
    {rest acc : List (Individual × Nat)} {vis : String → Bool}
    (h : ¬ gen < maxGen) :
    genWalkAux g maxGen (fuel + 1) ((cur, gen) :: rest) vis acc =
      genWalkAux g maxGen fuel rest vis (acc ++ [(cur, gen)]) := by
  simp [genWalkAux, h]

theorem enqueueParents_snd {gen1 : Nat} :
    ∀ (opts : List (Option Individual)) (vis : String → Bool),
    ∀ e ∈ (enqueueParents gen1 opts vis).2, e.2 = gen1 := by
  intro opts
  induction opts with
  | nil => intro vis e he; cases he
  | cons o rest ih =>
    intro vis e he
    cases o with
    | none => exact ih vis e he
    | some p =>
      by_cases hv : vis p.xref_id = true
      · rw [show enqueueParents gen1 (some p :: rest) vis =
            enqueueParents gen1 rest vis by simp [enqueueParents, hv]] at he
        exact ih vis e he
      · rw [show enqueueParents gen1 (some p :: rest) vis =
            ((enqueueParents gen1 rest (fun x => x = p.xref_id || vis x)).1,
             (p, gen1) :: (enqueueParents gen1 rest
               (fun x => x = p.xref_id || vis x)).2) by
            simp [enqueueParents, hv]] at he
        rcases List.mem_cons.mp he with h | h
        · rw [h]
        · exact ih _ e h

theorem filter_len_mono {p q : String → Bool}
    (himp : ∀ y, q y = true → p y = true) :
    ∀ (l : List String), (l.filter q).length ≤ (l.filter p).length := by
  intro l
  induction l with
  | nil => simp
  | cons a t ih =>
    by_cases hq : q a = true
    · rw [List.filter_cons_of_pos hq, List.filter_cons_of_pos (himp a hq)]
      simpa using ih
    · rw [List.filter_cons_of_neg (by simpa using hq)]
      by_cases hp : p a = true
      · rw [List.filter_cons_of_pos hp]
        simp
        omega
      · rw [List.filter_cons_of_neg (by simpa using hp)]
        exact ih

theorem filter_len_lt {p q : String → Bool}
    (himp : ∀ y, q y = true → p y = true) :
    ∀ (l : List String) (x : String), x ∈ l → p x = true → q x = false →
    (l.filter q).length < (l.filter p).length := by
  intro l
  induction l with
  | nil => intro x hx; cases hx
  | cons a t ih =>
    intro x hx hpx hqx
    rcases List.mem_cons.mp hx with h | h
    · subst h
      rw [List.filter_cons_of_neg (by simp [hqx]), List.filter_cons_of_pos hpx]
      have := filter_len_mono himp t
      simp
      omega
    · by_cases hq : q a = true
      · rw [List.filter_cons_of_pos hq, List.filter_cons_of_pos (himp a hq)]
        simpa using ih x h hpx hqx
      · rw [List.filter_cons_of_neg (by simpa using hq)]
        by_cases hp : p a = true
        · rw [List.filter_cons_of_pos hp]
          have := ih x h hpx hqx
          simp
          omega
        · rw [List.filter_cons_of_neg (by simpa using hp)]
          exact ih x h hpx hqx

theorem enqueueParents_measure {gen1 : Nat} :
    ∀ (opts : List (Option Individual)) (vis : String → Bool),
    (∀ p : Individual, some p ∈ opts → p ∈ g.individuals) →
    (enqueueParents gen1 opts vis).2.length +
      pedCand g (enqueueParents gen1 opts vis).1 ≤ pedCand g vis := by
  intro opts
  induction opts with
  | nil =>
    intro vis _
    simp [enqueueParents]
  | cons o rest ih =>
    intro vis hmem
    cases o with
    | none =>
      rw [show enqueueParents gen1 (none :: rest) vis =
          enqueueParents gen1 rest vis from rfl]
      exact ih vis (fun p hp => hmem p (List.mem_cons_of_mem _ hp))
    | some p =>
      by_cases hv : vis p.xref_id = true
      · rw [show enqueueParents gen1 (some p :: rest) vis =
            enqueueParents gen1 rest vis by simp [enqueueParents, hv]]
        exact ih vis (fun p' hp => hmem p' (List.mem_cons_of_mem _ hp))
      · rw [show enqueueParents gen1 (some p :: rest) vis =
            ((enqueueParents gen1 rest (fun x => x = p.xref_id || vis x)).1,
             (p, gen1) :: (enqueueParents gen1 rest
               (fun x => x = p.xref_id || vis x)).2) by
            simp [enqueueParents, hv]]
        have hih := ih (fun x => x = p.xref_id || vis x)
          (fun p' hp => hmem p' (List.mem_cons_of_mem _ hp))
        have hstep : pedCand g (fun x => x = p.xref_id || vis x) < pedCand g vis := by
          unfold pedCand
          apply filter_len_lt
          · intro y hy
            simp at hy ⊢
            exact hy.2
          · apply List.mem_dedup.mpr
            exact List.mem_map.mpr ⟨p, hmem p (List.mem_cons_self _ _), rfl⟩
          · simpa using hv
          · simp
        simp only [List.length_cons]
        omega

theorem genWalkAux_terminates :
    ∀ (fuel : Nat) (q : List (Individual × Nat)) (vis : String → Bool)
      (acc : List (Individual × Nat)),
    q.length + pedCand g vis < fuel →
    ∃ out, genWalkAux g maxGen fuel q vis acc = some out := by
  intro fuel
  induction fuel with
  | zero =>
    intro q vis acc h
    exact absurd h (Nat.not_lt_zero _)
  | succ n ih =>
    intro q vis acc h
    cases q with
    | nil => exact ⟨acc, genWalkAux_eq_nil⟩
    | cons e rest =>
      obtain ⟨cur, gen⟩ := e
      by_cases hgen : gen < maxGen
      · rw [genWalkAux_eq_step_lt hgen]
        have hparents : ∀ p : Individual,
            some p ∈ [(get_parents g cur).1, (get_parents g cur).2] →
            p ∈ g.individuals := by
          intro p hp
          rcases List.mem_cons.mp hp with h1 | h1
          · exact canonR_mem (get_parents_fst_canonR h1.symm)
          · rw [List.mem_singleton] at h1
            exact canonR_mem (get_parents_snd_canonR h1.symm)
        have hmeas := @enqueueParents_measure g (gen + 1)
          [(get_parents g cur).1, (get_parents g cur).2] vis hparents
        apply ih
        rw [List.length_append]
        simp only [List.length_cons] at h
        omega
      · rw [genWalkAux_eq_step_ge hgen]
        apply ih
        simp only [List.length_cons] at h
        omega

/-- The visited-candidate count never exceeds the number of individuals. -/
theorem pedCand_le (g : Gedcom) (vis : String → Bool) :
    pedCand g vis ≤ g.individuals.length := by
  unfold pedCand
  have h2 := List.length_filter_le (fun x => !vis x)
    ((g.individuals.map (fun i => i.xref_id)).dedup)
  have h3 : ((g.individuals.map (fun i => i.xref_id)).dedup).length ≤
      g.individuals.length := by
    have := (List.dedup_sublist (g.individuals.map (fun i => i.xref_id))).length_le
    simpa using this
  omega

/-- The generation walk always completes: the supplied fuel is sufficient. -/
theorem genWalkRun_some (g : Gedcom) (individual_id : String) (maxGen : Nat) :
    ∃ out, genWalkRun g individual_id maxGen = some out := by
  unfold genWalkRun
  rcases hs : get_individual g individual_id with _ | ind
  · exact ⟨[], rfl⟩
  apply genWalkAux_terminates
  have h1 := pedCand_le g (fun x => decide (x = ind.xref_id))
  unfold pedFuel
  simp only [List.length_singleton]
  omega

theorem genWalkAux_tail_pos :
    ∀ (fuel : Nat) (q : List (Individual × Nat)) (vis : String → Bool)
      (acc out : List (Individual × Nat)),
    (∀ e ∈ q, 1 ≤ e.2) → genWalkAux g maxGen fuel q vis acc = some out →
    ∃ t, out = acc ++ t ∧ ∀ x ∈ t, 1 ≤ x.2 := by
  intro fuel
  induction fuel with
  | zero =>
    intro q vis acc out hq hrun
    cases q with
    | nil =>
      rw [genWalkAux_eq_nil] at hrun
      exact ⟨[], by simp [← (Option.some.injEq _ _).mp hrun], by simp⟩
    | cons e rest => cases hrun
  | succ n ih =>
    intro q vis acc out hq hrun
    cases q with
    | nil =>
      rw [genWalkAux_eq_nil] at hrun
      exact ⟨[], by simp [← (Option.some.injEq _ _).mp hrun], by simp⟩
    | cons e rest =>
      obtain ⟨cur, gen⟩ := e
      have hgen1 : 1 ≤ gen := hq _ (List.mem_cons_self _ _)
      by_cases hgen : gen < maxGen
      · rw [genWalkAux_eq_step_lt hgen] at hrun
        have hq' : ∀ e ∈ rest ++ (enqueueParents (gen + 1)
            [(get_parents g cur).1, (get_parents g cur).2] vis).2, 1 ≤ e.2 := by
          intro e he
          rcases List.mem_append.mp he with h | h
          · exact hq e (List.mem_cons_of_mem _ h)
          · rw [enqueueParents_snd _ _ e h]
            omega
        obtain ⟨t, hsplit, hpos⟩ := ih _ _ _ _ hq' hrun
        refine ⟨(cur, gen) :: t, by simpa using hsplit, ?_⟩
        intro x hx
        rcases List.mem_cons.mp hx with h | h
        · rw [h]; exact hgen1
        · exact hpos x h
      · rw [genWalkAux_eq_step_ge hgen] at hrun
        have hq' : ∀ e ∈ rest, 1 ≤ e.2 := fun e he => hq e (List.mem_cons_of_mem _ he)
        obtain ⟨t, hsplit, hpos⟩ := ih _ _ _ _ hq' hrun
        refine ⟨(cur, gen) :: t, by simpa using hsplit, ?_⟩
        intro x hx
        rcases List.mem_cons.mp hx with h | h
        · rw [h]; exact hgen1
        · exact hpos x h

/-- The generation walk of a resolvable root visits the root first at
generation 0, and every later visit carries a positive generation. -/
theorem genWalkRun_head {g : Gedcom} {individual_id : String} {maxGen : Nat}
    {ind : Individual} (hs : get_individual g individual_id = some ind) :
    ∃ rest, genWalkRun g individual_id maxGen = some ((ind, 0) :: rest) ∧
      ∀ e ∈ rest, 1 ≤ e.2 := by
  unfold genWalkRun
  rw [hs]
  dsimp only
  rw [show pedFuel g = (g.individuals.length + 1) + 1 from rfl]
  by_cases hgen : 0 < maxGen
  · rw [genWalkAux_eq_step_lt hgen]
    have hparents : ∀ p : Individual,
        some p ∈ [(get_parents g ind).1, (get_parents g ind).2] →
        p ∈ g.individuals := by
      intro p hp
      rcases List.mem_cons.mp hp with h1 | h1
      · exact canonR_mem (get_parents_fst_canonR h1.symm)
      · rw [List.mem_singleton] at h1
        exact canonR_mem (get_parents_snd_canonR h1.symm)
    have hmeas := @enqueueParents_measure g (0 + 1)
      [(get_parents g ind).1, (get_parents g ind).2] (fun x => x = ind.xref_id)
      hparents
    have hcand := pedCand_le g (fun x => decide (x = ind.xref_id))
    obtain ⟨out, hout⟩ := @genWalkAux_terminates g maxGen
      (g.individuals.length + 1)
      ([] ++ (enqueueParents (0 + 1)
        [(get_parents g ind).1, (get_parents g ind).2] (fun x => x = ind.xref_id)).2)
      (enqueueParents (0 + 1)
        [(get_parents g ind).1, (get_parents g ind).2] (fun x => x = ind.xref_id)).1
      ([] ++ [(ind, 0)])
      (by rw [List.length_append]; simp only [List.length_nil]; omega)
    have hq1 : ∀ e ∈ [] ++ (enqueueParents (0 + 1)
        [(get_parents g ind).1, (get_parents g ind).2]
        (fun x => x = ind.xref_id)).2, 1 ≤ e.2 := by
      intro e he
      rw [List.nil_append] at he
      rw [enqueueParents_snd _ _ e he]
    obtain ⟨t, hsplit, hpos⟩ := genWalkAux_tail_pos _ _ _ _ _ hq1 hout
    refine ⟨t, ?_, hpos⟩
    rw [hout, hsplit]
    simp
  · rw [genWalkAux_eq_step_ge hgen]
    rw [genWalkAux_eq_nil]
    exact ⟨[], by simp, by simp⟩

end GenWalk

/-! ## Sorting-key lemmas -/

theorem bloodScore_eq : ∀ steps : List PathStep,
    (steps.map (fun st => st.blood_type.value)).sum = steps.length + halfCount steps := by
  intro steps
  induction steps with
  | nil => simp [halfCount]
  | cons st rest ih =>
    cases hb : st.blood_type <;>
      simp [halfCount, List.filter_cons, hb, BloodType.value] at ih ⊢ <;>
      omega

theorem maleScore_eq : ∀ steps : List PathStep,
    (steps.map (fun st => if st.via_male then 0 else 1)).sum = femaleCount steps := by
  intro steps
  induction steps with
  | nil => simp [femaleCount]
  | cons st rest ih =>
    cases hb : st.via_male <;>
      simp [femaleCount, List.filter_cons, hb] at ih ⊢ <;>
      omega

theorem sorting_key_eq (p : RelationshipPath) :
    p.sorting_key = (p.steps.length, p.steps.length + halfCount p.steps,
      femaleCount p.steps) := by
  unfold RelationshipPath.sorting_key RelationshipPath.length
  rw [bloodScore_eq, maleScore_eq]

theorem tupLe_refl (a : Nat × Nat × Nat) : tupLe a a := by
  unfold tupLe
  omega

theorem tupLe_antisymm {a b : Nat × Nat × Nat} (h1 : tupLe a b) (h2 : tupLe b a) :
    a = b := by
  obtain ⟨a1, a2, a3⟩ := a
  obtain ⟨b1, b2, b3⟩ := b
  unfold tupLe at h1 h2
  simp only at h1 h2
  have h3 : a1 = b1 ∧ a2 = b2 ∧ a3 = b3 := by omega
  simp [h3.1, h3.2.1, h3.2.2]

/-- The code key and the spec key order paths identically. -/
theorem keyLe_iff_claimKey (p q : RelationshipPath) :
    keyLe p q ↔ tupLe (claimKey p) (claimKey q) := by
  unfold keyLe claimKey
  rw [sorting_key_eq, sorting_key_eq]
  unfold tupLe
  simp only
  omega

/-! ## Generation-map lemmas -/

theorem lookupGen_cons {k gen : Nat} {l : List Individual}
    {rest : List (Nat × List Individual)} :
    lookupGen gen ((k, l) :: rest) =
      if k = gen then some l else lookupGen gen rest := by
  unfold lookupGen
  rw [List.find?_cons]
  by_cases h : k = gen
  · simp [h]
  · have hb : (k == gen) = false := by simpa using h
    simp [hb, h]

theorem lookupGen_addToMap_same :
    ∀ (m : List (Nat × List Individual)) (gen : Nat) (i : Individual),
    lookupGen gen (addToMap m gen i) =
      some (((lookupGen gen m).getD []) ++ [i]) := by
  intro m
  induction m with
  | nil =>
    intro gen i
    simp [addToMap, lookupGen_cons, lookupGen]
  | cons e rest ih =>
    intro gen i
    obtain ⟨k, l⟩ := e
    by_cases hk : k = gen
    · subst hk
      rw [show addToMap ((k, l) :: rest) k i = (k, l ++ [i]) :: rest by
        simp [addToMap]]
      rw [lookupGen_cons, if_pos rfl, lookupGen_cons, if_pos rfl]
      simp
    · rw [show addToMap ((k, l) :: rest) gen i = (k, l) :: addToMap rest gen i by
        simp [addToMap, hk]]
      rw [lookupGen_cons, if_neg hk, lookupGen_cons, if_neg hk]
      exact ih gen i

theorem lookupGen_addToMap_other {k' gen : Nat} (hne : k' ≠ gen) :
    ∀ (m : List (Nat × List Individual)) (i : Individual),
    lookupGen gen (addToMap m k' i) = lookupGen gen m := by
  intro m
  induction m with
  | nil =>
    intro i
    simp [addToMap, lookupGen_cons, hne, lookupGen]
  | cons e rest ih =>
    intro i
    obtain ⟨k, l⟩ := e
    by_cases hk : k = k'
    · subst hk
      rw [show addToMap ((k, l) :: rest) k i = (k, l ++ [i]) :: rest by
        simp [addToMap]]
      rw [lookupGen_cons, if_neg hne, lookupGen_cons, if_neg hne]
    · rw [show addToMap ((k, l) :: rest) k' i = (k, l) :: addToMap rest k' i by
        simp [addToMap, hk]]
      rw [lookupGen_cons, lookupGen_cons]
      by_cases h2 : k = gen
      · simp [h2]
      · simp [h2, ih i]

theorem groupFold_head {ind : Individual} :
    ∀ (rest : List (Individual × Nat)) (m : List (Nat × List Individual))
      (l : List Individual),
    lookupGen 0 m = some (ind :: l) →
    ∃ l', lookupGen 0 (rest.foldl (fun m e => addToMap m e.2 e.1) m) =
      some (ind :: l') := by
  intro rest
  induction rest with
  | nil => exact fun m l h => ⟨l, h⟩
  | cons e t ih =>
    intro m l h
    obtain ⟨i0, k0⟩ := e
    simp only [List.foldl_cons]
    by_cases hk : k0 = 0
    · subst hk
      have hsame := lookupGen_addToMap_same m 0 i0
      rw [h] at hsame
      exact ih _ _ (by simpa using hsame)
    · have hother := lookupGen_addToMap_other hk m i0
      rw [h] at hother
      exact ih _ _ hother

/-! ## Claim-level helper lemmas -/

/-- `_determine_blood_type` returns full blood exactly under the spec's
full-blood condition. -/
theorem determine_blood_type_full_iff (g : Gedcom) (parent child : Individual) :
    determine_blood_type g parent child = .full ↔ FullBloodCond g parent child := by
  unfold determine_blood_type FullBloodCond
  rcases hp : get_parents g child with ⟨pf, pm⟩
  cases pf with
  | none => simp
  | some cf =>
    cases pm with
    | none => simp
    | some cm =>
      dsimp only
      constructor
      · intro h
        by_cases hany : (get_families_as_spouse g parent).any (fun fam =>
            match fam.husb, fam.wife with
            | some h, some w => cf.xref_id == h && cm.xref_id == w
            | _, _ => false) = true
        · obtain ⟨fam, hfmem, hfpred⟩ := List.any_eq_true.mp hany
          refine ⟨cf, cm, rfl, rfl, fam, hfmem, ?_⟩
          rcases hh : fam.husb with _ | hid <;> rw [hh] at hfpred
          · cases hfpred
          rcases hw : fam.wife with _ | wid <;> rw [hw] at hfpred
          · cases hfpred
          simp only [Bool.and_eq_true, beq_iff_eq] at hfpred
          rw [hfpred.1, hfpred.2]
          exact ⟨rfl, rfl⟩
        · rw [if_neg hany] at h
          cases h
      · rintro ⟨cf', cm', hcf, hcm, fam, hfmem, hh, hw⟩
        have hcf2 : cf = cf' := (Option.some.injEq _ _).mp hcf
        have hcm2 : cm = cm' := (Option.some.injEq _ _).mp hcm
        have hany : (get_families_as_spouse g parent).any (fun fam =>
            match fam.husb, fam.wife with
            | some h, some w => cf.xref_id == h && cm.xref_id == w
            | _, _ => false) = true := by
          rw [List.any_eq_true]
          refine ⟨fam, hfmem, ?_⟩
          rw [hh, hw]
          dsimp only
          rw [hcf2, hcm2]
          simp
        rw [if_pos hany]

/-- Every step produced by `_get_neighbors` satisfies the amended blood rule. -/
theorem get_neighbors_stepBloodOk {g : Gedcom} {cur nb : Individual}
    {stp : PathStep} (h : (nb, stp) ∈ get_neighbors g cur) :
    StepBloodOk g cur stp nb := by
  rcases get_neighbors_cases h with ⟨h1, h2⟩ | ⟨h1, h2⟩ | ⟨h1, h2⟩ <;> subst h2
  · exact rfl
  · exact rfl
  · simp only [StepBloodOk]
    exact determine_blood_type_full_iff g cur nb

/-- Every step produced by `_get_neighbors` satisfies the amended
lineage-sex rule. -/
theorem get_neighbors_stepMaleOk {g : Gedcom} {cur nb : Individual}
    {stp : PathStep} (h : (nb, stp) ∈ get_neighbors g cur) :
    StepMaleOk g cur stp nb := by
  rcases get_neighbors_cases h with ⟨h1, h2⟩ | ⟨h1, h2⟩ | ⟨h1, h2⟩ <;> subst h2
  · exact Or.inl ⟨rfl, h1⟩
  · exact Or.inr ⟨rfl, h1⟩
  · simp only [StepMaleOk]
    by_cases hm : get_sex cur = some "M" <;> simp [hm]

/-- A nonempty walk's last step carries the xref of its final record. -/
theorem chainTo_getLast {g : Gedcom} {steps : List PathStep} {a fin : Individual}
    (h : ChainTo g a steps fin) (hne : steps ≠ []) :
    ∃ last, steps.getLast? = some last ∧ last.individual_id = fin.xref_id := by
  induction h with
  | nil => exact absurd rfl hne
  | cons hmem hrest ih =>
    rename_i cur nb fin' stp rest
    cases rest with
    | nil =>
      cases hrest
      exact ⟨stp, rfl, get_neighbors_step_id hmem⟩
    | cons s2 r2 =>
      obtain ⟨last, h1, h2⟩ := ih (by simp)
      refine ⟨last, ?_, h2⟩
      rw [List.getLast?_cons_cons]
      exact h1

/-- With an unresolvable endpoint the search returns the empty list. -/
theorem find_empty_unres {g : Gedcom} {s e : String} {d : Nat}
    (h : get_individual g s = none ∨ get_individual g e = none) :
    find_relationship_paths g s e d = [] := by
  unfold find_relationship_paths bfsRun
  rcases h with h | h
  · rw [h]
    rfl
  · rw [h]
    rcases get_individual g s with _ | si <;> rfl

/-- With both ids resolving to the same record the search returns the single
zero-length path. -/
theorem find_single {g : Gedcom} {s e : String} {d : Nat} {si ei : Individual}
    (hs : get_individual g s = some si) (he : get_individual g e = some ei)
    (heq : si.xref_id = ei.xref_id) :
    find_relationship_paths g s e d = [⟨[], s, e⟩] := by
  apply find_eq_bfsRun
  unfold bfsRun
  rw [hs, he]
  dsimp only
  rw [if_pos heq]

/-! ## Claim theorems -/

/-- C1: for every individual id that resolves via the parser,
`generate_pedigree` returns a pedigree chart built from the single ancestor
walk of the root without raising: the walk visits the root first at
generation offset 0, every other visit has a positive offset, the chart is
the generation grouping of that walk (`Except.ok`, no raise), and the bucket
at offset 0 starts with the root. -/
theorem c1_pedigree {g : Gedcom} {individual_id : String} {generations : Nat}
    {ind : Individual} (hs : get_individual g individual_id = some ind) :
    ∃ rest, find_pedigree_with_generations g individual_id generations =
        (ind, 0) :: rest ∧
      (∀ e ∈ rest, 1 ≤ e.2) ∧
      generate_pedigree g individual_id generations = Except.ok
        (groupByGen (find_pedigree_with_generations g individual_id generations)) ∧
      ∃ l, lookupGen 0 (groupByGen
        (find_pedigree_with_generations g individual_id generations)) =
          some (ind :: l) := by
  obtain ⟨rest, hrun, hpos⟩ :=
    @genWalkRun_head g individual_id generations ind hs
  have hwalk : find_pedigree_with_generations g individual_id generations =
      (ind, 0) :: rest := by
    unfold find_pedigree_with_generations
    rw [hrun]
    rfl
  refine ⟨rest, hwalk, hpos, ?_, ?_⟩
  · unfold generate_pedigree
    rw [hs]
  · rw [hwalk]
    unfold groupByGen
    rw [List.foldl_cons]
    apply groupFold_head rest (addToMap [] 0 ind) []
    rfl

/-- C1 witness. -/
theorem c1_pedigree_witness :
    ∃ rest, find_pedigree_with_generations gOne "@A@" 4 = (aRec, 0) :: rest ∧
      (∀ e ∈ rest, 1 ≤ e.2) ∧
      generate_pedigree gOne "@A@" 4 = Except.ok
        (groupByGen (find_pedigree_with_generations gOne "@A@" 4)) ∧
      ∃ l, lookupGen 0 (groupByGen (find_pedigree_with_generations gOne "@A@" 4)) =
        some (aRec :: l) :=
  c1_pedigree (by rfl)

/-- C2 counterexample: in `gPar` the only path from the child `C` to her
father `F` is the single toward-parent step, which the code marks full
blood; the child has no recorded mother, so the spec's full-blood condition
fails on that edge, refuting the claim that the rule applies to
toward-parent steps. -/
theorem c2_counterexample :
    ¬ ∀ p ∈ find_relationship_paths gPar "@C@" "@F@" 10,
        ChainSat gPar (StepBloodClaim gPar) cRec p.steps := by
  intro h
  have heq : find_relationship_paths gPar "@C@" "@F@" 10 =
      [⟨[⟨"@F@", .parent, .full, true⟩], "@C@", "@F@"⟩] := by decide
  have hsat := h ⟨[⟨"@F@", .parent, .full, true⟩], "@C@", "@F@"⟩
    (by rw [heq]; exact List.mem_singleton.mpr rfl)
  cases hsat with
  | cons hmem hR hrest =>
    rename_i nb
    have hnb : get_neighbors gPar cRec =
        [(fRec, ⟨"@F@", .parent, .full, true⟩)] := by decide
    rw [hnb, List.mem_singleton, Prod.ext_iff] at hmem
    obtain ⟨h1, _⟩ := hmem
    simp only at h1
    subst h1
    simp only [StepBloodClaim] at hR
    obtain ⟨cf, cm, _, h2, _⟩ := hR.mp trivial
    rw [show (get_parents gPar cRec).2 = none from rfl] at h2
    cases h2

/-- C2 amended: in every path returned by `find_relationship_paths`, every
toward-child step carries full blood exactly under the spec's full-blood
condition, while every toward-parent step carries full blood weight
unconditionally. -/
theorem c2_amended (g : Gedcom) (s e : String) (d : Nat) :
    ∀ p ∈ find_relationship_paths g s e d,
      ∃ si, get_individual g s = some si ∧
        ChainSat g (StepBloodOk g) si p.steps := by
  intro p hp
  rcases hs : get_individual g s with _ | si
  · rw [find_empty_unres (Or.inl hs)] at hp
    cases hp
  rcases he : get_individual g e with _ | ei
  · rw [find_empty_unres (Or.inr he)] at hp
    cases hp
  refine ⟨si, rfl, ?_⟩
  by_cases heq : si.xref_id = ei.xref_id
  · rw [find_single hs he heq, List.mem_singleton] at hp
    rw [hp]
    exact ChainSat.nil si
  · obtain ⟨_, _, _, ⟨fin, hc, _⟩, _, _⟩ := find_sound hs he heq p hp
    exact chainTo_chainSat (fun cur nb stp hm => get_neighbors_stepBloodOk hm) hc

/-- C3 counterexample: in `gPar` the only path from the female child `C` to
her father `F` is a toward-parent step flagged via-male, although the node
departed from is recorded female, refuting the claimed sex-mirroring rule
for toward-parent steps. -/
theorem c3_counterexample :
    ¬ ∀ p ∈ find_relationship_paths gPar "@C@" "@F@" 10,
        ChainSat gPar (StepMaleClaim gPar) cRec p.steps := by
  intro h
  have heq : find_relationship_paths gPar "@C@" "@F@" 10 =
      [⟨[⟨"@F@", .parent, .full, true⟩], "@C@", "@F@"⟩] := by decide
  have hsat := h ⟨[⟨"@F@", .parent, .full, true⟩], "@C@", "@F@"⟩
    (by rw [heq]; exact List.mem_singleton.mpr rfl)
  cases hsat with
  | cons hmem hR hrest =>
    rename_i nb
    simp only [StepMaleClaim] at hR
    rw [show get_sex cRec = some "F" from rfl] at hR
    simp at hR

/-- C3 amended: in every path returned by `find_relationship_paths`, a
toward-parent step is via-male exactly when its target occupies the father
(HUSB) slot and not via-male when it occupies the mother (WIFE) slot,
regardless of recorded sex; a toward-child step is via-male exactly when the
departed node is recorded male, with unknown sex resolving to not-male. -/
theorem c3_amended (g : Gedcom) (s e : String) (d : Nat) :
    ∀ p ∈ find_relationship_paths g s e d,
      ∃ si, get_individual g s = some si ∧
        ChainSat g (StepMaleOk g) si p.steps := by
  intro p hp
  rcases hs : get_individual g s with _ | si
  · rw [find_empty_unres (Or.inl hs)] at hp
    cases hp
  rcases he : get_individual g e with _ | ei
  · rw [find_empty_unres (Or.inr he)] at hp
    cases hp
  refine ⟨si, rfl, ?_⟩
  by_cases heq : si.xref_id = ei.xref_id
  · rw [find_single hs he heq, List.mem_singleton] at hp
    rw [hp]
    exact ChainSat.nil si
  · obtain ⟨_, _, _, ⟨fin, hc, _⟩, _, _⟩ := find_sound hs he heq p hp
    exact chainTo_chainSat (fun cur nb stp hm => get_neighbors_stepMaleOk hm) hc

/-- C2 amended witness. -/
theorem c2_amended_witness :
    ∃ si, get_individual gPar "@C@" = some si ∧
      ChainSat gPar (StepBloodOk gPar) si
        (⟨[⟨"@F@", .parent, .full, true⟩], "@C@", "@F@"⟩ : RelationshipPath).steps :=
  c2_amended gPar "@C@" "@F@" 10
    ⟨[⟨"@F@", .parent, .full, true⟩], "@C@", "@F@"⟩ (by decide)

/-- C3 amended witness. -/
theorem c3_amended_witness :
    ∃ si, get_individual gPar "@C@" = some si ∧
      ChainSat gPar (StepMaleOk gPar) si
        (⟨[⟨"@F@", .parent, .full, true⟩], "@C@", "@F@"⟩ : RelationshipPath).steps :=
  c3_amended gPar "@C@" "@F@" 10
    ⟨[⟨"@F@", .parent, .full, true⟩], "@C@", "@F@"⟩ (by decide)

/-- C4 counterexample: in `gC4` the search returns both the length-2 walk
through `A` and the length-3 walk through `B` and `C`; since a returned path
is strictly longer than a returned connecting path, the returned list does
not consist only of minimal-length connecting paths. -/
theorem c4_counterexample :
    ∃ p ∈ find_relationship_paths gC4 "@S@" "@T@" 4,
      ∃ q ∈ find_relationship_paths gC4 "@S@" "@T@" 4,
        ConnSteps gC4 s4 t4 q.steps ∧ q.steps.length < p.steps.length := by
  refine ⟨⟨[⟨"@B@", .child, .half, false⟩, ⟨"@C@", .child, .half, false⟩,
      ⟨"@T@", .child, .half, false⟩], "@S@", "@T@"⟩, by decide,
    ⟨[⟨"@A@", .child, .half, false⟩, ⟨"@T@", .child, .half, false⟩],
      "@S@", "@T@"⟩, by decide, ⟨t4, ?_, rfl⟩, by decide⟩
  show ChainTo gC4 s4 [⟨"@A@", .child, .half, false⟩,
    ⟨"@T@", .child, .half, false⟩] t4
  exact @ChainTo.cons gC4 s4 a4 t4 ⟨"@A@", .child, .half, false⟩ _ (by decide)
    (@ChainTo.cons gC4 a4 t4 t4 ⟨"@T@", .child, .half, false⟩ _ (by decide)
      (ChainTo.nil t4))

/-- C4 amended: for resolvable distinct endpoints with minimal connecting
length `L ≤ max_depth`, every returned path is a connecting walk of length at
most `L + 1` (paths one step longer than minimal can also be returned), and
every connecting walk of the minimal length `L` is returned. -/
theorem c4_amended {g : Gedcom} {s e : String} {d : Nat} {si ei : Individual}
    (hs : get_individual g s = some si) (he : get_individual g e = some ei)
    (hne : si.xref_id ≠ ei.xref_id) {L : Nat}
    (hex : ∃ steps, ConnSteps g si ei steps ∧ steps.length = L)
    (hmin : ∀ steps, ConnSteps g si ei steps → L ≤ steps.length)
    (hLd : L ≤ d) :
    (∀ p ∈ find_relationship_paths g s e d,
      ConnSteps g si ei p.steps ∧ p.steps.length ≤ L + 1) ∧
    (∀ steps, ConnSteps g si ei steps → steps.length = L →
      (⟨steps, s, e⟩ : RelationshipPath) ∈ find_relationship_paths g s e d) := by
  obtain ⟨W0, ⟨w0End, hW0c, hW0x⟩, hW0len⟩ := hex
  have hmw0 : MinWalk g si ei W0 w0End :=
    ⟨hW0c, hW0x, fun steps fin hc hx => hW0len ▸ hmin steps ⟨fin, hc, hx⟩⟩
  constructor
  · intro p hp
    obtain ⟨_, _, _, ⟨fin, hc, hx⟩, _, _⟩ := find_sound hs he hne p hp
    refine ⟨⟨fin, hc, hx⟩, ?_⟩
    have hb := (find_complete_minWalk hs he hne hmw0 (hW0len ▸ hLd)).2 p hp
    omega
  · rintro steps ⟨fin, hc, hx⟩ hlen
    have hmw : MinWalk g si ei steps fin :=
      ⟨hc, hx, fun steps' fin' hc' hx' => hlen ▸ hmin steps' ⟨fin', hc', hx'⟩⟩
    obtain ⟨⟨p, hp, hpsteps⟩, _⟩ :=
      find_complete_minWalk hs he hne hmw (hlen ▸ hLd)
    obtain ⟨hst, hen, _, _, _, _⟩ := find_sound hs he hne p hp
    have hpe : p = ⟨steps, s, e⟩ := by
      obtain ⟨psteps, pst, pen⟩ := p
      simp only at hpsteps hst hen
      rw [hpsteps, hst, hen]
    rw [← hpe]
    exact hp

/-- C4 amended witness. -/
theorem c4_amended_witness :
    (∀ p ∈ find_relationship_paths gOne "@A@" "@B@" 10,
      ConnSteps gOne aRec bRec p.steps ∧ p.steps.length ≤ 2) ∧
    (∀ steps, ConnSteps gOne aRec bRec steps → steps.length = 1 →
      (⟨steps, "@A@", "@B@"⟩ : RelationshipPath) ∈
        find_relationship_paths gOne "@A@" "@B@" 10) :=
  c4_amended (by rfl) (by rfl) (by decide)
    ⟨[⟨"@B@", .child, .half, false⟩],
      ⟨bRec, ChainTo.cons (by decide) (ChainTo.nil bRec), rfl⟩, rfl⟩
    (by
      rintro steps ⟨fin, hc, hx⟩
      cases steps with
      | nil =>
        cases hc
        exact absurd hx (by decide)
      | cons s r => simp)
    (by decide)

/-- C5: `get_shortest_paths` returns exactly (up to the sorted order) those
found paths whose spec key (length, half-step count, via-female count) is
minimal over all found paths: every tied-minimal path is kept. -/
theorem c5_shortest (g : Gedcom) (s e : String) (d : Nat) :
    List.Perm (get_shortest_paths g s e d)
      ((find_relationship_paths g s e d).filter (fun p =>
        (find_relationship_paths g s e d).all (fun q =>
          decide (tupLe (claimKey p) (claimKey q))))) := by
  rcases hall : find_relationship_paths g s e d with _ | ⟨p0, rest⟩
  · simp [get_shortest_paths, hall]
  have hsorted_perm := List.perm_insertionSort keyLe (p0 :: rest)
  have hsorted_sorted := List.sorted_insertionSort keyLe (p0 :: rest)
  rcases hsort : (p0 :: rest).insertionSort keyLe with _ | ⟨h, t⟩
  · rw [hsort] at hsorted_perm
    exact absurd hsorted_perm.symm (by simp)
  rw [hsort] at hsorted_perm hsorted_sorted
  have hgsp : get_shortest_paths g s e d =
      (h :: t).filter (fun p => p.sorting_key == h.sorting_key) := by
    unfold get_shortest_paths
    rw [hall]
    dsimp only
    rw [hsort]
  rw [hgsp]
  have hmin : ∀ q ∈ p0 :: rest, keyLe h q := by
    intro q hq
    have hq2 : q ∈ h :: t := (hsorted_perm.mem_iff).mpr hq
    rcases List.mem_cons.mp hq2 with h1 | h1
    · rw [h1]
      exact tupLe_refl _
    · exact (List.sorted_cons.mp hsorted_sorted).1 q h1
  have hcong : ∀ x ∈ h :: t,
      (x.sorting_key == h.sorting_key) =
      ((p0 :: rest).all (fun q => decide (tupLe (claimKey x) (claimKey q)))) := by
    intro x hx
    have hxall : x ∈ p0 :: rest := (hsorted_perm.mem_iff).mp hx
    by_cases hkey : x.sorting_key = h.sorting_key
    · rw [beq_iff_eq.mpr hkey]
      symm
      rw [List.all_eq_true]
      intro q hq
      rw [decide_eq_true_iff]
      have hxq : keyLe x q := by
        unfold keyLe
        rw [hkey]
        exact hmin q hq
      exact (keyLe_iff_claimKey x q).mp hxq
    · have hb : (x.sorting_key == h.sorting_key) = false := by
        simpa using hkey
      rw [hb]
      symm
      rw [Bool.eq_false_iff]
      intro hall2
      have hxh : keyLe x h := by
        have := List.all_eq_true.mp hall2 h
          ((hsorted_perm.mem_iff).mp (List.mem_cons_self _ _))
        rw [decide_eq_true_iff] at this
        exact (keyLe_iff_claimKey x h).mpr this
      have hhx : keyLe h x := hmin x hxall
      exact hkey (tupLe_antisymm hxh hhx)
  rw [List.filter_congr hcong]
  exact hsorted_perm.filter _

/-- C6: for resolvable ids, `find_relationship_paths` returns the empty list
exactly when no connecting walk of length at most `max_depth` exists. -/
theorem c6_empty_iff {g : Gedcom} {s e : String} {d : Nat} {si ei : Individual}
    (hs : get_individual g s = some si) (he : get_individual g e = some ei) :
    (find_relationship_paths g s e d = [] ↔
      ¬ ∃ steps, ConnSteps g si ei steps ∧ steps.length ≤ d) := by
  by_cases heq : si.xref_id = ei.xref_id
  · rw [find_single hs he heq]
    constructor
    · intro hcontra
      cases hcontra
    · intro hno
      exact absurd (hno ⟨[], ⟨si, ChainTo.nil si, heq⟩, by simp⟩) (fun h => h)
  · constructor
    · rintro hempty ⟨steps, ⟨fin, hc, hx⟩, hlen⟩
      obtain ⟨W, wEnd, hmw, hWle⟩ := exists_minWalk hc hx
      obtain ⟨p, hp, _⟩ :=
        (find_complete_minWalk (d := d) hs he heq hmw (by omega)).1
      rw [hempty] at hp
      cases hp
    · intro hno
      by_contra hne
      obtain ⟨p, hp⟩ := List.exists_mem_of_ne_nil _ hne
      obtain ⟨_, _, _, ⟨fin, hc, hx⟩, _, hlen⟩ := find_sound hs he heq p hp
      exact hno ⟨p.steps, ⟨fin, hc, hx⟩, hlen⟩

/-- C6 witness. -/
theorem c6_empty_iff_witness :
    find_relationship_paths gOne "@A@" "@B@" 10 = [] ↔
      ¬ ∃ steps, ConnSteps gOne aRec bRec steps ∧ steps.length ≤ 10 :=
  c6_empty_iff (by rfl) (by rfl)

/-- C7 counterexample: `generate_pedigree` raises (models `ValueError`) for
an unresolvable id instead of returning an empty result, refuting the claim
that no operation signals NotFound by an exception. -/
theorem c7_counterexample :
    get_individual gEmpty "@X@" = none ∧
    generate_pedigree gEmpty "@X@" 4 =
      Except.error "Individual @X@ not found" :=
  ⟨rfl, rfl⟩

/-- C7 amended: when an id fails to resolve, the path-search operations
return an empty result, while the chart builders raise a `ValueError`
(modelled as `Except.error`): `generate_pedigree` for an unresolvable
root, and `generate_relationship` whenever either endpoint of the first
path — its start id or its end id — is unresolvable. -/
theorem c7_amended {g : Gedcom} {x y : String} {d gens : Nat}
    (hx : get_individual g x = none) :
    find_relationship_paths g x y d = [] ∧
    find_relationship_paths g y x d = [] ∧
    find_pedigree g x gens = [] ∧
    find_pedigree_with_generations g x gens = [] ∧
    (∃ msg, generate_pedigree g x gens = Except.error msg) ∧
    (∀ (stps : List PathStep) (o : String) (more : List RelationshipPath),
      (∃ msg, generate_relationship g ((⟨stps, x, o⟩ : RelationshipPath) :: more) =
        Except.error msg) ∧
      (∃ msg, generate_relationship g ((⟨stps, o, x⟩ : RelationshipPath) :: more) =
        Except.error msg)) := by
  refine ⟨find_empty_unres (Or.inl hx), find_empty_unres (Or.inr hx), ?_, ?_, ?_, ?_⟩
  · unfold find_pedigree genWalkRun
    rw [hx]
    rfl
  · unfold find_pedigree_with_generations genWalkRun
    rw [hx]
    rfl
  · refine ⟨"Individual " ++ x ++ " not found", ?_⟩
    unfold generate_pedigree
    rw [hx]
  · intro stps o more
    constructor
    · refine ⟨"Invalid start or end individual", ?_⟩
      unfold generate_relationship
      dsimp only
      rw [hx]
    · refine ⟨"Invalid start or end individual", ?_⟩
      unfold generate_relationship
      dsimp only
      rw [hx]
      cases get_individual g o <;> rfl

/-- C7 amended witness. -/
theorem c7_amended_witness :
    find_relationship_paths gOne "@X@" "@Y@" 10 = [] ∧
    find_relationship_paths gOne "@Y@" "@X@" 10 = [] ∧
    find_pedigree gOne "@X@" 4 = [] ∧
    find_pedigree_with_generations gOne "@X@" 4 = [] ∧
    (∃ msg, generate_pedigree gOne "@X@" 4 = Except.error msg) ∧
    (∀ (stps : List PathStep) (o : String) (more : List RelationshipPath),
      (∃ msg, generate_relationship gOne
        ((⟨stps, "@X@", o⟩ : RelationshipPath) :: more) = Except.error msg) ∧
      (∃ msg, generate_relationship gOne
        ((⟨stps, o, "@X@"⟩ : RelationshipPath) :: more) = Except.error msg)) :=
  c7_amended (by rfl)

/-- C8: for every record store (finite by construction, cycles included) and
every depth / generation bound, both BFS loops complete within the supplied
fuel: the loop of `find_relationship_paths` and the generation walk of
`find_pedigree` terminate, and the public results are the completed loops'
results. -/
theorem c8_termination (g : Gedcom) (s e : String) (d : Nat) (x : String)
    (gens : Nat) :
    (∃ out, bfsRun g s e d = some out ∧ find_relationship_paths g s e d = out) ∧
    (∃ out, genWalkRun g x gens = some out ∧
      find_pedigree_with_generations g x gens = out ∧
      find_pedigree g x gens = out.map (fun e => e.1)) := by
  constructor
  · obtain ⟨out, hout⟩ := bfsRun_some g s e d
    exact ⟨out, hout, find_eq_bfsRun hout⟩
  · obtain ⟨out, hout⟩ := genWalkRun_some g x gens
    refine ⟨out, hout, ?_, ?_⟩
    · unfold find_pedigree_with_generations
      rw [hout]
      rfl
    · unfold find_pedigree
      rw [hout]
      rfl

/-- C9: with distinct resolvable endpoints, every returned path is nonempty,
no step before the last targets the end individual, and the last step does:
the end individual appears only as the final step. -/
theorem c9_end_only_final {g : Gedcom} {s e : String} {d : Nat}
    {si ei : Individual} (hs : get_individual g s = some si)
    (he : get_individual g e = some ei) (hne : si.xref_id ≠ ei.xref_id) :
    ∀ p ∈ find_relationship_paths g s e d,
      p.steps ≠ [] ∧
      (∀ stp ∈ p.steps.dropLast, stp.individual_id ≠ ei.xref_id) ∧
      (∃ last, p.steps.getLast? = some last ∧
        last.individual_id = ei.xref_id) := by
  intro p hp
  obtain ⟨_, _, hnenil, ⟨fin, hc, hx⟩, hdrop, _⟩ := find_sound hs he hne p hp
  refine ⟨hnenil, hdrop, ?_⟩
  obtain ⟨last, h1, h2⟩ := chainTo_getLast hc hnenil
  exact ⟨last, h1, h2.trans hx⟩

/-- C9 witness. -/
theorem c9_end_only_final_witness :
    (⟨[⟨"@B@", .child, .half, false⟩], "@A@", "@B@"⟩ : RelationshipPath).steps ≠ [] ∧
    (∀ stp ∈ (⟨[⟨"@B@", .child, .half, false⟩], "@A@", "@B@"⟩ :
        RelationshipPath).steps.dropLast,
      stp.individual_id ≠ bRec.xref_id) ∧
    (∃ last, (⟨[⟨"@B@", .child, .half, false⟩], "@A@", "@B@"⟩ :
        RelationshipPath).steps.getLast? = some last ∧
      last.individual_id = bRec.xref_id) :=
  @c9_end_only_final gOne "@A@" "@B@" 10 aRec bRec (by rfl) (by rfl) (by decide)
    ⟨[⟨"@B@", .child, .half, false⟩], "@A@", "@B@"⟩ (by decide)

/-- C10: `generate_relationship` raises a `ValueError` (modelled as
`Except.error`) on an empty path list instead of returning a chart. -/
theorem c10_empty_paths_error (g : Gedcom) :
    generate_relationship g [] = Except.error "No paths provided" := rfl
